import Mathlib

/-!
Text Analysis Server: edit distance, Top-K matching and the session protocol.

A shallow embedding of `text_analysis_server.c`.

* C strings are lists of characters (`CStr`): the bytes before the terminating NUL.
  A raw buffer filled by `recv` is a plain `List Char` that may contain NUL bytes; `cstr`
  gives the C string that starts it.
* Fixed arrays (`column`, `closestWords`, `editDist`) are lists, read with `List.getD` and
  written with `List.set`; loops are folds over the list of their index values.
  A row of `closestWords` holds up to `MAX_INPUT_LENGTH` characters in the source; `strcpy`
  into a row is modelled as assignment, which is exact for words within that capacity.
* `int` values are natural numbers: every length in the program is bounded by a buffer of
  at most 256 bytes, far below the range of `int`.
* Everything the session does to the outside is recorded as a list of `Event`s; what the socket
  delivers is a list of `RecvEvent`s.
-/

namespace TextAnalysisServer

/-! ## Definitions -/

/-- Content of a NUL-terminated C string. -/
abbrev CStr := List Char

def MAX_INPUT_LENGTH : Nat := 100

def MAX_OUTPUT_LENGTH : Nat := 200

def LEVENSHTEIN_LIST_LIMIT : Nat := 5

/-! ### Edit-distance engine (`calculateLevenshteinDistance`) -/

/-- Body of the inner loop `for (y = 1; y <= len1; y++)`; the state is the column together
with `lastDiagonal`. -/
def levInnerStep (s1 s2 : CStr) (x : Nat) (st : List Nat × Nat) (y : Nat) : List Nat × Nat :=
  let column := st.1
  let lastDiagonal := st.2
  let oldDiagonal := column.getD y 0
  let costDeletion := column.getD y 0 + 1
  let costInsertion := column.getD (y - 1) 0 + 1
  let costSubstitution :=
    lastDiagonal + (if s1.getD (y - 1) '\x00' = s2.getD (x - 1) '\x00' then 0 else 1)
  let minCost := costDeletion
  let minCost := if costInsertion < minCost then costInsertion else minCost
  let minCost := if costSubstitution < minCost then costSubstitution else minCost
  (column.set y minCost, oldDiagonal)

/-- Body of the outer loop `for (x = 1; x <= len2; x++)`. -/
def levOuterStep (s1 s2 : CStr) (column : List Nat) (x : Nat) : List Nat :=
  let column := column.set 0 x
  let lastDiagonal := x - 1
  ((List.range' 1 s1.length).foldl (levInnerStep s1 s2 x) (column, lastDiagonal)).1

/-- The function `calculateLevenshteinDistance`, with the outcome of its `malloc` as a parameter:
when the column cannot be allocated the source returns the longer of the two lengths. -/
def calculateLevenshteinDistanceMem (columnAllocated : Bool) (s1 s2 : CStr) : Nat :=
  let len1 := s1.length
  let len2 := s2.length
  if !columnAllocated then
    (if len1 > len2 then len1 else len2)
  else
    let column := List.range (len1 + 1)
    let column := (List.range' 1 len2).foldl (levOuterStep s1 s2) column
    column.getD len1 0

/-- The function `calculateLevenshteinDistance` on the path where the column is allocated. -/
def calculateLevenshteinDistance (s1 s2 : CStr) : Nat :=
  calculateLevenshteinDistanceMem true s1 s2

/-! ### Reference definitions for the edit distance -/

/-- Cost of putting `y` where `x` stands: nothing when they are equal, one otherwise. -/
def substCost (x y : Char) : Nat := if x = y then 0 else 1

/-- One row of the reference recursion: distances from `x :: a`, given those from `a`. -/
def levenshteinRow (x : Char) (a : CStr) (prev : CStr → Nat) : CStr → Nat
  | [] => a.length + 1
  | y :: b =>
    min (min (levenshteinRow x a prev b + 1) (prev (y :: b) + 1)) (prev b + substCost x y)

/-- Reference recursive Levenshtein distance: `lev [] b = |b|`, `lev a [] = |a|`, and
`lev (x :: a) (y :: b)` is the least of `lev (x :: a) b + 1`, `lev a (y :: b) + 1` and
`lev a b + substCost x y`. -/
def levenshteinRef : CStr → CStr → Nat
  | [] => fun b => b.length
  | x :: a => levenshteinRow x a (levenshteinRef a)

/-- Alignment of two strings together with its cost. -/
inductive Align : CStr → CStr → Nat → Prop
  | nil : Align [] [] 0
  | del (x : Char) {a b : CStr} {n : Nat} : Align a b n → Align (x :: a) b (n + 1)
  | ins (y : Char) {a b : CStr} {n : Nat} : Align a b n → Align a (y :: b) (n + 1)
  | sub (x y : Char) {a b : CStr} {n : Nat} :
      Align a b n → Align (x :: a) (y :: b) (n + substCost x y)

/-- One single-character edit anywhere in a string: an insertion, a deletion or a
substitution. -/
inductive EditStep : CStr → CStr → Prop
  | insert (p : CStr) (c : Char) (s : CStr) : EditStep (p ++ s) (p ++ c :: s)
  | delete (p : CStr) (c : Char) (s : CStr) : EditStep (p ++ c :: s) (p ++ s)
  | substitute (p : CStr) (c d : Char) (s : CStr) : EditStep (p ++ c :: s) (p ++ d :: s)

/-- Transformation of one string into another by exactly `n` single-character edits. -/
inductive EditChain : Nat → CStr → CStr → Prop
  | done (a : CStr) : EditChain 0 a a
  | step {n : Nat} {a b c : CStr} : EditStep a b → EditChain n b c → EditChain (n + 1) a c

/-- Invariant of the inner loop of `calculateLevenshteinDistance` after `k` iterations of the
pass for `x = n + 1`: column entries up to `k` hold the distances to the first `n + 1`
characters of `s2`, the later ones still those to the first `n`. -/
def RowInv (s1 s2 : CStr) (n k : Nat) (st : List Nat × Nat) : Prop :=
  st.1.length = s1.length + 1 ∧
  (∀ i, i ≤ k → st.1.getD i 0 = levenshteinRef (s1.take i) (s2.take (n + 1))) ∧
  (∀ i, k < i → i ≤ s1.length → st.1.getD i 0 = levenshteinRef (s1.take i) (s2.take n)) ∧
  st.2 = levenshteinRef (s1.take k) (s2.take n)

/-- Invariant of the outer loop: entry `i` of the column is the distance between the first `i`
characters of `s1` and the first `n` characters of `s2`. -/
def ColInv (s1 s2 : CStr) (n : Nat) (column : List Nat) : Prop :=
  column.length = s1.length + 1 ∧
  ∀ i, i ≤ s1.length → column.getD i 0 = levenshteinRef (s1.take i) (s2.take n)

/-! ### Dictionary and Top-K matcher (`searchSimilarWordsThread`) -/

/-- The struct `Dictionary`; `entryCount` is the length of `entries`. -/
structure Dictionary where
  entries : List CStr
deriving DecidableEq

/-- The struct `SearchTaskData`. The task reads the dictionary through a pointer; the session
joins every task before it changes the dictionary, so the task sees the value stored here. -/
structure SearchTaskData where
  inputStr : CStr
  lex : Dictionary
  closestWords : List CStr
  editDist : List Nat
deriving DecidableEq

/-- Body of the shifting loop: slot `m` takes the content of slot `m - 1`. -/
def shiftStep (data : SearchTaskData) (m : Nat) : SearchTaskData :=
  { data with
    editDist := data.editDist.set m (data.editDist.getD (m - 1) 0)
    closestWords := data.closestWords.set m (data.closestWords.getD (m - 1) []) }

/-- The loop `for (m = LEVENSHTEIN_LIST_LIMIT - 1; m > k; m--)`. -/
def shiftDown (data : SearchTaskData) (k : Nat) : SearchTaskData :=
  (List.range' (k + 1) (LEVENSHTEIN_LIST_LIMIT - 1 - k)).reverse.foldl shiftStep data

/-- The loop `for (k = 0; k < LEVENSHTEIN_LIST_LIMIT; k++)` over the values of `k` still to be
tried; it stops at the first slot whose distance is strictly greater than `dist`. -/
def insertEntry (entry : CStr) (dist : Nat) : List Nat → SearchTaskData → SearchTaskData
  | [], data => data
  | k :: ks, data =>
    if dist < data.editDist.getD k 0 then
      let data := shiftDown data k
      { data with
        editDist := data.editDist.set k dist
        closestWords := data.closestWords.set k entry }
    else insertEntry entry dist ks data

/-- Body of the scan over the dictionary, for one entry. -/
def searchStep (data : SearchTaskData) (entry : CStr) : SearchTaskData :=
  let dist := calculateLevenshteinDistance data.inputStr entry
  insertEntry entry dist (List.range LEVENSHTEIN_LIST_LIMIT) data

/-- State of the task after the first `n` iterations of the scan. -/
def searchLoop (data : SearchTaskData) (n : Nat) : SearchTaskData :=
  (data.lex.entries.take n).foldl searchStep data

/-- The function `searchSimilarWordsThread`: the scan over all `entryCount` entries. -/
def searchSimilarWordsThread (data : SearchTaskData) : SearchTaskData :=
  searchLoop data data.lex.entries.length

/-- Task set up by `handleClientConnection` for one token: the token copied with
`strncpy (.., MAX_INPUT_LENGTH)` and five slots holding the empty word and 999999. -/
def initTaskData (token : CStr) (mainLex : Dictionary) : SearchTaskData :=
  { inputStr := token.take MAX_INPUT_LENGTH
    lex := mainLex
    closestWords := List.replicate LEVENSHTEIN_LIST_LIMIT []
    editDist := List.replicate LEVENSHTEIN_LIST_LIMIT 999999 }

/-- The candidate list of a task: slot `j` is the pair of `closestWords[j]` and
`editDist[j]`. -/
def slots (data : SearchTaskData) : List (CStr × Nat) :=
  data.closestWords.zip data.editDist

/-- The exact-match test of the session: some slot has distance 0 and a word equal to
`inputStr`. -/
def foundExactMatch (data : SearchTaskData) : Bool :=
  (List.range LEVENSHTEIN_LIST_LIMIT).any
    (fun j => data.editDist.getD j 0 == 0 && data.closestWords.getD j [] == data.inputStr)

/-! ### Reference definitions for the Top-K matcher -/

/-- Order on scored candidates: by distance only. -/
def distLE (p q : CStr × Nat) : Prop := p.2 ≤ q.2

instance : DecidableRel distLE := fun p q => inferInstanceAs (Decidable (p.2 ≤ q.2))

instance : IsTotal (CStr × Nat) distLE := ⟨fun p q => Nat.le_total p.2 q.2⟩

instance : IsTrans (CStr × Nat) distLE := ⟨fun _ _ _ h1 h2 => Nat.le_trans h1 h2⟩

/-- Insertion of a candidate behind every slot whose distance is not greater. -/
def insertAfterLE (x : CStr × Nat) : List (CStr × Nat) → List (CStr × Nat)
  | [] => [x]
  | s :: rest => if x.2 < s.2 then x :: s :: rest else s :: insertAfterLE x rest

/-- The scan written on candidate lists: insert behind the slots that are not greater and keep
five slots. -/
def topKFold (inputStr : CStr) (s0 : List (CStr × Nat)) (ws : List CStr) : List (CStr × Nat) :=
  ws.foldl (fun s w => (insertAfterLE (w, calculateLevenshteinDistance inputStr w) s).take 5) s0

/-- The libc function `isalpha` in the default C locale: the letters A to Z and a to z. -/
def isalpha (c : Char) : Bool := c.isAlpha

/-- The libc function `tolower` in the default C locale. -/
def tolower (c : Char) : Char := c.toLower

def convertToLowercase (str : CStr) : CStr := str.map tolower

def isValidInput : CStr → Bool
  | [] => true
  | c :: rest => if !isalpha c && c != ' ' then false else isValidInput rest

/-- ASCII letter, by code point: A to Z or a to z. -/
def isAsciiLetter (c : Char) : Prop :=
  (65 ≤ c.toNat ∧ c.toNat ≤ 90) ∨ (97 ≤ c.toNat ∧ c.toNat ≤ 122)

instance : DecidablePred isAsciiLetter := fun c =>
  inferInstanceAs (Decidable ((65 ≤ c.toNat ∧ c.toNat ≤ 90) ∨ (97 ≤ c.toNat ∧ c.toNat ≤ 122)))

/-- Characters the validation lets through: the letters and the space. -/
def allowedChar (c : Char) : Prop := isAsciiLetter c ∨ c = ' '

instance : DecidablePred allowedChar := fun c =>
  inferInstanceAs (Decidable (isAsciiLetter c ∨ c = ' '))

/-! ### Session (`handleClientConnection`) -/

/-- The C string at the start of a buffer: the bytes before its first NUL. -/
def cstr (buf : List Char) : CStr := buf.takeWhile (fun c => c != '\x00')

/-- The loop that overwrites the first CR or LF among the received bytes with NUL. -/
def terminateAtLineEnd : List Char → List Char
  | [] => []
  | c :: rest => if c = '\r' ∨ c = '\n' then '\x00' :: rest else c :: terminateAtLineEnd rest

/-- The libc function `strtok_r` with delimiter " ", called until it returns NULL: the maximal
runs of characters other than the space; `cur` is the run being read. -/
def strtokAux : List Char → CStr → List CStr
  | [], cur => if cur = [] then [] else [cur]
  | c :: rest, cur =>
    if c = ' ' then (if cur = [] then strtokAux rest [] else cur :: strtokAux rest [])
    else strtokAux rest (cur ++ [c])

/-- The tokenizing loop of the session. The source stores the tokens in an array of 100
pointers; the list here has no bound. -/
def tokenize (inputBuffer : CStr) : List CStr := strtokAux inputBuffer []

/-- What the socket has for one call of `recv`: pending bytes, or a failure. -/
inductive RecvEvent where
  | data (bytes : List Char)
  | error
deriving DecidableEq

/-- The system call `recv` on a stream socket with a buffer of `cap` bytes: it delivers at most
`cap` of the pending bytes and leaves the others pending; with nothing left the peer has closed
and the call returns no bytes. The result `none` is a return value below zero. -/
def recv (cap : Nat) : List RecvEvent → Option (List Char) × List RecvEvent
  | [] => (some [], [])
  | RecvEvent.error :: rest => (none, rest)
  | RecvEvent.data bytes :: rest =>
    if bytes.length ≤ cap then (some bytes, rest)
    else (some (bytes.take cap), RecvEvent.data (bytes.drop cap) :: rest)

/-- The texts the server writes, one constructor for each format string of a `dprintf`. -/
inductive Msg where
  /-- Format string "Hello, this is Text Analysis Server!\r\n". -/
  | greeting
  /-- Format string "Please enter your input string:\r\n". -/
  | askInput
  /-- Format string "ERROR: Input is longer than %d!\r\n". -/
  | errTooLong (limit : Nat)
  /-- Format string "ERROR: including dots, commas, question marks, etc!\r\n". -/
  | errInvalidChars
  /-- Format string "Check the other word...\r\n". -/
  | checkOtherWord
  /-- Format string "WORD %02d: %s\r\n". -/
  | wordLine (index : Nat) (word : CStr)
  /-- Format string "MATCHES: ". -/
  | matchesHeader
  /-- Format string "%s (%d)". -/
  | matchItem (word : CStr) (dist : Nat)
  /-- Format string ", ". -/
  | comma
  /-- Format string "\r\n". -/
  | crlf
  /-- Format string "WORD '%s' is not present in dictionary.\r\n". -/
  | notPresent (word : CStr)
  /-- Format string "Do you want to add this word to dictionary or exit? (y/N/q): ". -/
  | askAdd
  /-- Format string "Word added to dictionary.\r\n". -/
  | wordAdded
  /-- Format string "Connection closed by user.\r\n". -/
  | closedByUser
  /-- Format string "Word not added to dictionary.\r\n". -/
  | wordNotAdded
  /-- Format string "\r\nINPUT : %s\r\n". -/
  | inputLine (text : CStr)
  /-- Format string "OUTPUT: %s\r\n". -/
  | outputLine (text : CStr)
  /-- Format string "Thanks for using Text Analysis Server! Goodbye!\r\n". -/
  | goodbye
deriving DecidableEq

/-- What the session does to the outside, in order: a `dprintf` to a descriptor, a `shutdown`,
a `close`, a `perror`. -/
inductive Event where
  | send (fd : Nat) (msg : Msg)
  | shutdown (fd : Nat)
  | close (fd : Nat)
  | perror
deriving DecidableEq

/-- The outside of a session: what the socket will deliver, whether the word file can be
opened for appending, and the words appended to it so far. -/
structure World where
  recvs : List RecvEvent
  fileWritable : Bool
  file : List CStr
deriving DecidableEq

/-- Outcome of a session: the events it produced, the dictionary and the outside after it. -/
structure Session where
  events : List Event
  mainLex : Dictionary
  world : World
deriving DecidableEq

def notifyErrorAndDisconnect (clientSock : Nat) (msg : Msg) : List Event :=
  [Event.send clientSock msg, Event.send clientSock Msg.checkOtherWord, Event.shutdown clientSock]
    ++ (if clientSock = 0 then [Event.close clientSock] else [])

def addNewEntry (lex : Dictionary) (newEntry : CStr) : Dictionary :=
  { entries := lex.entries ++ [newEntry] }

def appendNewWordToFile (world : World) (newWord : CStr) : World :=
  if world.fileWritable then { world with file := world.file ++ [newWord] } else world

/-- The call `snprintf (tempString, size, "%s ", word)`. -/
def snprintfWord (size : Nat) (word : CStr) : CStr := (word ++ [' ']).take (size - 1)

/-- The libc function `strncat`: at most `n` characters of `src` are appended. -/
def strncat (dest src : CStr) (n : Nat) : CStr := dest ++ src.take n

/-- The "MATCHES:" line of one token, one event for each `dprintf`. -/
def matchEvents (clientSock : Nat) (data : SearchTaskData) : List Event :=
  [Event.send clientSock Msg.matchesHeader] ++
  (List.range LEVENSHTEIN_LIST_LIMIT).flatMap (fun j =>
    [Event.send clientSock (Msg.matchItem (data.closestWords.getD j []) (data.editDist.getD j 0))]
      ++ (if j < LEVENSHTEIN_LIST_LIMIT - 1 then [Event.send clientSock Msg.comma] else []))
  ++ [Event.send clientSock Msg.crlf]

/-- Reading of the answer to the prompt: `recv` into a zeroed buffer of 10 bytes, the first CR
or LF overwritten when something was read, then `convertToLowercase`. -/
def readResponse (world : World) : CStr × World :=
  match recv 9 world.recvs with
  | (some bytes, rest) =>
    (convertToLowercase (cstr (if bytes.length > 0 then terminateAtLineEnd bytes else bytes)),
      { world with recvs := rest })
  | (none, rest) => ([], { world with recvs := rest })

/-- The resolution loop `for (i = 0; i < tokenCount; i++)` over the finished tasks, with
`finalOutput` as accumulated so far. The result is `none` when the user quits. The notices
"Word added" and "Word not added" go to descriptor 1, the standard output of the server, which
is taken to be another descriptor than the client socket. -/
def resolveTokens (clientSock : Nat) :
    List SearchTaskData → Nat → CStr → Session → Option CStr × Session
  | [], _, finalOutput, s => (some finalOutput, s)
  | data :: more, i, finalOutput, s =>
    let listing := [Event.send clientSock (Msg.wordLine (i + 1) data.inputStr)]
      ++ matchEvents clientSock data
    if foundExactMatch data then
      let tempString := snprintfWord (MAX_INPUT_LENGTH + 10) data.inputStr
      resolveTokens clientSock more (i + 1)
        (strncat finalOutput tempString (MAX_OUTPUT_LENGTH - finalOutput.length - 1))
        { s with events := s.events ++ listing }
    else
      let prompt := [Event.send clientSock (Msg.notPresent data.inputStr),
        Event.send clientSock Msg.askAdd]
      let (response, world) := readResponse s.world
      let c := response.headD '\x00'
      if c = 'y' ∨ c = 'Y' then
        let tempString := snprintfWord (MAX_INPUT_LENGTH + 10) data.inputStr
        resolveTokens clientSock more (i + 1)
          (strncat finalOutput tempString (MAX_OUTPUT_LENGTH - finalOutput.length - 1))
          { s with
            events := s.events ++ listing ++ prompt ++ notifyErrorAndDisconnect 1 Msg.wordAdded
            mainLex := addNewEntry s.mainLex data.inputStr
            world := appendNewWordToFile world data.inputStr }
      else if c = 'q' ∨ c = 'Q' then
        (none, { s with
          events := s.events ++ listing ++ prompt
            ++ notifyErrorAndDisconnect clientSock Msg.closedByUser ++ [Event.close clientSock]
          world := world })
      else
        let tempString := snprintfWord (MAX_INPUT_LENGTH + 10) (data.closestWords.getD 0 [])
        resolveTokens clientSock more (i + 1)
          (strncat finalOutput tempString (MAX_OUTPUT_LENGTH - finalOutput.length - 1))
          { s with
            events := s.events ++ listing ++ prompt ++ notifyErrorAndDisconnect 1 Msg.wordNotAdded
            world := world }

/-- The two checks of the session on the input line: its length, then its characters. The
result is the error text when the line is refused. -/
def validate (inputBuffer : CStr) : Option Msg :=
  if inputBuffer.length > MAX_INPUT_LENGTH then some (Msg.errTooLong MAX_INPUT_LENGTH)
  else if !isValidInput inputBuffer then some Msg.errInvalidChars
  else none

/-- The function `handleClientConnection`. Each token is matched by its own task against the
dictionary as it is before the resolution loop starts. -/
def handleClientConnection (clientSock : Nat) (mainLex : Dictionary) (world : World) : Session :=
  let hello := [Event.send clientSock Msg.greeting, Event.send clientSock Msg.askInput]
  match recv (MAX_INPUT_LENGTH + 10 - 1) world.recvs with
  | (none, rest) =>
    { events := hello ++ [Event.perror, Event.close clientSock]
      mainLex := mainLex
      world := { world with recvs := rest } }
  | (some bytes, rest) =>
    let world := { world with recvs := rest }
    let inputBuffer := cstr (terminateAtLineEnd bytes)
    match validate inputBuffer with
    | some errorMsg =>
      { events := hello ++ notifyErrorAndDisconnect clientSock errorMsg
        mainLex := mainLex
        world := world }
    | none =>
      let inputBuffer := convertToLowercase inputBuffer
      let originalInput := inputBuffer.take MAX_INPUT_LENGTH
      let tokens := tokenize inputBuffer
      let taskData :=
        tokens.map (fun token => searchSimilarWordsThread (initTaskData token mainLex))
      match resolveTokens clientSock taskData 0 []
          { events := hello, mainLex := mainLex, world := world } with
      | (none, s) => s
      | (some finalOutput, s) =>
        { s with
          events := s.events ++ [Event.send clientSock (Msg.inputLine originalInput),
            Event.send clientSock (Msg.outputLine finalOutput),
            Event.send clientSock Msg.goodbye, Event.close clientSock] }

/-- An error line of the validation, on any descriptor. -/
def isErrorLine : Event → Bool
  | Event.send _ (Msg.errTooLong _) => true
  | Event.send _ Msg.errInvalidChars => true
  | _ => false

/-- The received input line as the specification describes it: the bytes before the first CR
or LF. -/
def receivedLine (bytes : List Char) : List Char :=
  bytes.takeWhile (fun c => c != '\r' && c != '\n')

/-- The line the session works on: the bytes before the first CR, LF or NUL. -/
def sessionLine (bytes : List Char) : List Char :=
  bytes.takeWhile (fun c => c != '\r' && c != '\n' && c != '\x00')

/-- The dictionary of the specification's example. -/
def catDict : Dictionary :=
  ⟨["cat".toList, "bat".toList, "rat".toList, "hat".toList, "mat".toList, "cats".toList]⟩

/-! ### Reference definitions for tokenizing and for the stored words -/

/-- Words joined with single spaces. -/
def spaceJoin : List CStr → CStr
  | [] => []
  | [w] => w
  | w :: rest => w ++ ' ' :: spaceJoin rest

/-- Lowercase ASCII letter, by code point: a to z. -/
def isLowerLetter (c : Char) : Prop := 97 ≤ c.toNat ∧ c.toNat ≤ 122

instance : DecidablePred isLowerLetter := fun c =>
  inferInstanceAs (Decidable (97 ≤ c.toNat ∧ c.toNat ≤ 122))

/-- Uppercase ASCII letter, by code point: A to Z. -/
def isUpperLetter (c : Char) : Prop := 65 ≤ c.toNat ∧ c.toNat ≤ 90

instance : DecidablePred isUpperLetter := fun c =>
  inferInstanceAs (Decidable (65 ≤ c.toNat ∧ c.toNat ≤ 90))

/-! ### Reference definitions for the resolution loop -/

/-- First byte of what a `recv` returned, if there is one. -/
def firstByte : Option (List Char) → Option Char
  | some (b :: _) => some b
  | _ => none

/-- The answer to the prompt is affirmative: its first byte is y or Y. -/
def answersYes (world : World) : Prop :=
  firstByte (recv 9 world.recvs).1 = some 'y' ∨ firstByte (recv 9 world.recvs).1 = some 'Y'

instance : DecidablePred answersYes := fun world =>
  inferInstanceAs (Decidable (firstByte (recv 9 world.recvs).1 = some 'y' ∨
    firstByte (recv 9 world.recvs).1 = some 'Y'))

/-- The answer to the prompt is quit: its first byte is q or Q. -/
def answersQuit (world : World) : Prop :=
  firstByte (recv 9 world.recvs).1 = some 'q' ∨ firstByte (recv 9 world.recvs).1 = some 'Q'

instance : DecidablePred answersQuit := fun world =>
  inferInstanceAs (Decidable (firstByte (recv 9 world.recvs).1 = some 'q' ∨
    firstByte (recv 9 world.recvs).1 = some 'Q'))

/-- The outside after the answer to one prompt has been read. -/
def afterResponse (world : World) : World :=
  { world with recvs := (recv 9 world.recvs).2 }

/-- The lines the session sends for every token: "WORD nn: token" and the "MATCHES:" line. -/
def listingEvents (clientSock : Nat) (i : Nat) (data : SearchTaskData) : List Event :=
  [Event.send clientSock (Msg.wordLine (i + 1) data.inputStr)] ++ matchEvents clientSock data

/-- The notice and the prompt the session sends for a token without exact match. -/
def promptEvents (clientSock : Nat) (data : SearchTaskData) : List Event :=
  [Event.send clientSock (Msg.notPresent data.inputStr), Event.send clientSock Msg.askAdd]

/-- The word each token is resolved to, in token order, up to the token at which the user
quits: the argument of the format "%s " that fills `tempString`. -/
def resolvedWords : List SearchTaskData → World → List CStr
  | [], _ => []
  | data :: more, world =>
    if foundExactMatch data then data.inputStr :: resolvedWords more world
    else if answersYes world then
      data.inputStr :: resolvedWords more (appendNewWordToFile (afterResponse world) data.inputStr)
    else if answersQuit world then []
    else data.closestWords.getD 0 [] :: resolvedWords more (afterResponse world)

/-- A line of the summary: "INPUT :" or "OUTPUT:". -/
def isSummaryLine : Event → Bool
  | Event.send _ (Msg.inputLine _) => true
  | Event.send _ (Msg.outputLine _) => true
  | _ => false

/-- The update of `finalOutput` for one resolved word: `snprintf` of the word and a space into
`tempString`, then the bounded `strncat`. -/
def appendWord (finalOutput word : CStr) : CStr :=
  strncat finalOutput (snprintfWord (MAX_INPUT_LENGTH + 10) word)
    (MAX_OUTPUT_LENGTH - finalOutput.length - 1)

/-- An event of the resolution loop: a listing line, the notice and prompt for a token without
exact match, one of the notices that follow an answer, a `shutdown` or a `close`. -/
def isResolutionEvent : Event → Bool
  | Event.send _ (Msg.wordLine _ _) => true
  | Event.send _ Msg.matchesHeader => true
  | Event.send _ (Msg.matchItem _ _) => true
  | Event.send _ Msg.comma => true
  | Event.send _ Msg.crlf => true
  | Event.send _ (Msg.notPresent _) => true
  | Event.send _ Msg.askAdd => true
  | Event.send _ Msg.wordAdded => true
  | Event.send _ Msg.wordNotAdded => true
  | Event.send _ Msg.closedByUser => true
  | Event.send _ Msg.checkOtherWord => true
  | Event.shutdown _ => true
  | Event.close _ => true
  | _ => false

/-- The finished task of one token, as the session sets it up and runs it against the
dictionary `mainLex`. -/
def taskFor (mainLex : Dictionary) (token : CStr) : SearchTaskData :=
  searchSimilarWordsThread (initTaskData token mainLex)

/-- The state in which the resolution loop of an accepted session starts: the greeting and the
request for input sent, the dictionary untouched, the first `recv` consumed. -/
def sessionStart (clientSock : Nat) (mainLex : Dictionary) (world : World)
    (rest : List RecvEvent) : Session :=
  ⟨[Event.send clientSock Msg.greeting, Event.send clientSock Msg.askInput], mainLex,
    ⟨rest, world.fileWritable, world.file⟩⟩

/-- The four events that end a session that completes: the "INPUT :" line, the "OUTPUT:" line,
the goodbye line and the `close`. -/
def summaryEvents (clientSock : Nat) (originalInput finalOutput : CStr) : List Event :=
  [Event.send clientSock (Msg.inputLine originalInput),
    Event.send clientSock (Msg.outputLine finalOutput),
    Event.send clientSock Msg.goodbye, Event.close clientSock]

/-! ### Loading the dictionary (`loadFromFile`) -/

/-- The characters one call of `fgets` stores when it may store up to `n`: the stream up to
and including the first LF, and the stream left after them. -/
def fgetsLine : Nat → List Char → List Char × List Char
  | 0, stream => ([], stream)
  | _ + 1, [] => ([], [])
  | n + 1, c :: stream =>
    if c = '\n' then ([c], stream)
    else ((c :: (fgetsLine n stream).1), (fgetsLine n stream).2)

/-- The libc function `fgets` with a buffer of `size` bytes: `none` at the end of the file. -/
def fgets (size : Nat) (stream : List Char) : Option (List Char × List Char) :=
  if stream = [] then none else some (fgetsLine (size - 1) stream)

/-- The libc function `strcspn`: length of the start of `s` free of the characters of
`reject`. -/
def strcspn (s : CStr) (reject : List Char) : Nat :=
  (s.takeWhile (fun c => !reject.contains c)).length

/-- Body of the loop that stores the lines: the buffer is cut at its first CR or LF and
converted to lowercase. -/
def storeLine (tempBuf : List Char) : CStr :=
  let s := cstr tempBuf
  convertToLowercase (s.take (strcspn s ['\r', '\n']))

/-- The loop `while (fgets (tempBuf, sizeof (tempBuf), fp))` that stores the lines, for at most
`fuel` iterations. The source first runs the same loop to count the lines. -/
def readEntries : Nat → List Char → List CStr
  | 0, _ => []
  | fuel + 1, stream =>
    match fgets 256 stream with
    | none => []
    | some (tempBuf, rest) => storeLine tempBuf :: readEntries fuel rest

/-- The function `loadFromFile`; the file is `none` when it cannot be opened. Every call of
`fgets` that succeeds consumes a character, so as many iterations as the file has characters
reach its end. -/
def loadFromFile (file : Option (List Char)) : Option Dictionary :=
  match file with
  | none => none
  | some content => some ⟨readEntries content.length content⟩

/-- A stored word has no uppercase letter and no CR or LF. -/
def wordClean (w : CStr) : Prop :=
  ∀ c ∈ w, ¬ isUpperLetter c ∧ c ≠ '\r' ∧ c ≠ '\n'

/-- The dictionary invariant: every stored word is clean. -/
def dictClean (lex : Dictionary) : Prop := ∀ w ∈ lex.entries, wordClean w

instance (w : CStr) : Decidable (wordClean w) :=
  inferInstanceAs (Decidable (∀ c ∈ w, ¬ isUpperLetter c ∧ c ≠ '\r' ∧ c ≠ '\n'))

instance (lex : Dictionary) : Decidable (dictClean lex) :=
  inferInstanceAs (Decidable (∀ w ∈ lex.entries, wordClean w))

/-! ## Theorems -/

theorem lev_nil_left (b : CStr) : levenshteinRef [] b = b.length := rfl
theorem lev_nil_right (a : CStr) : levenshteinRef a [] = a.length := by
  cases a <;> rfl
theorem lev_cons_cons (x y : Char) (a b : CStr) :
    levenshteinRef (x :: a) (y :: b) =
      min (min (levenshteinRef (x :: a) b + 1) (levenshteinRef a (y :: b) + 1))
        (levenshteinRef a b + substCost x y) := rfl

theorem substCost_le_one (x y : Char) : substCost x y ≤ 1 := by
  unfold substCost; split <;> omega

theorem substCost_self (x : Char) : substCost x x = 0 := by simp [substCost]

theorem substCost_comm (x y : Char) : substCost x y = substCost y x := by
  unfold substCost
  by_cases h : x = y
  · simp [h]
  · have h2 : ¬ y = x := fun e => h e.symm
    simp [h, h2]

theorem lev_self (a : CStr) : levenshteinRef a a = 0 := by
  induction a with
  | nil => rfl
  | cons x a ih => rw [lev_cons_cons, ih, substCost_self]; omega

theorem lev_comm (a : CStr) : ∀ b, levenshteinRef a b = levenshteinRef b a := by
  induction a with
  | nil => intro b; rw [lev_nil_left, lev_nil_right]
  | cons x a iha =>
    intro b
    induction b with
    | nil => rw [lev_nil_left, lev_nil_right]
    | cons y b ihb =>
      rw [lev_cons_cons, lev_cons_cons, ihb, iha (y :: b), iha b, substCost_comm x y]
      omega

theorem lev_ge_sub (a : CStr) : ∀ b, a.length - b.length ≤ levenshteinRef a b ∧
    b.length - a.length ≤ levenshteinRef a b := by
  induction a with
  | nil => intro b; rw [lev_nil_left]; simp
  | cons x a iha =>
    intro b
    induction b with
    | nil => rw [lev_nil_right]; simp
    | cons y b ihb =>
      rw [lev_cons_cons]
      have h1 := iha (y :: b)
      have h2 := iha b
      simp only [List.length_cons] at *
      omega

theorem lev_cons_left_le (x : Char) (a b : CStr) :
    levenshteinRef (x :: a) b ≤ levenshteinRef a b + 1 := by
  cases b with
  | nil => rw [lev_nil_right, lev_nil_right]; simp
  | cons y b => rw [lev_cons_cons]; omega

theorem lev_cons_right_le (y : Char) (a b : CStr) :
    levenshteinRef a (y :: b) ≤ levenshteinRef a b + 1 := by
  rw [lev_comm a (y :: b), lev_comm a b]; exact lev_cons_left_le y b a

theorem lev_le_cons_right (y : Char) (a : CStr) :
    ∀ b, levenshteinRef a b ≤ levenshteinRef a (y :: b) + 1 := by
  induction a with
  | nil => intro b; rw [lev_nil_left, lev_nil_left]; simp only [List.length_cons]; omega
  | cons x a iha =>
    intro b
    rw [lev_cons_cons]
    have h1 := lev_cons_left_le x a b
    have h2 := iha b
    omega

theorem lev_le_cons_left (x : Char) (a b : CStr) :
    levenshteinRef a b ≤ levenshteinRef (x :: a) b + 1 := by
  rw [lev_comm a b, lev_comm (x :: a) b]; exact lev_le_cons_right x b a

theorem lev_cons_cons_same (x : Char) (a b : CStr) :
    levenshteinRef (x :: a) (x :: b) = levenshteinRef a b := by
  rw [lev_cons_cons, substCost_self]
  have h1 := lev_le_cons_left x a b
  have h2 := lev_le_cons_right x a b
  omega

theorem align_nil_left (b : CStr) : Align [] b b.length := by
  induction b with
  | nil => exact Align.nil
  | cons y b ih => exact Align.ins y ih

theorem align_nil_right (a : CStr) : Align a [] a.length := by
  induction a with
  | nil => exact Align.nil
  | cons x a ih => exact Align.del x ih

theorem align_lev (a : CStr) : ∀ b, Align a b (levenshteinRef a b) := by
  induction a with
  | nil => intro b; exact align_nil_left b
  | cons x a iha =>
    intro b
    induction b with
    | nil => rw [lev_nil_right]; exact align_nil_right _
    | cons y b ihb =>
      rw [lev_cons_cons]
      have h1 := Align.ins y ihb
      have h2 := Align.del x (iha (y :: b))
      have h3 := Align.sub x y (iha b)
      rcases Nat.le_total (levenshteinRef (x :: a) b + 1) (levenshteinRef a (y :: b) + 1) with h | h
      · rw [Nat.min_eq_left h]
        rcases Nat.le_total (levenshteinRef (x :: a) b + 1) (levenshteinRef a b + substCost x y) with h' | h'
        · rw [Nat.min_eq_left h']; exact h1
        · rw [Nat.min_eq_right h']; exact h3
      · rw [Nat.min_eq_right h]
        rcases Nat.le_total (levenshteinRef a (y :: b) + 1) (levenshteinRef a b + substCost x y) with h' | h'
        · rw [Nat.min_eq_left h']; exact h2
        · rw [Nat.min_eq_right h']; exact h3

theorem lev_le_of_align {a b : CStr} {n : Nat} (h : Align a b n) : levenshteinRef a b ≤ n := by
  induction h with
  | nil => simp [lev_nil_left]
  | del x _ ih => exact le_trans (lev_cons_left_le x _ _) (by omega)
  | ins y _ ih => exact le_trans (lev_cons_right_le y _ _) (by omega)
  | sub x y _ ih => rw [lev_cons_cons]; omega

theorem align_snoc_left {a b : CStr} {n : Nat} (h : Align a b n) (x : Char) :
    Align (a ++ [x]) b (n + 1) := by
  induction h with
  | nil => exact Align.del x Align.nil
  | del z _ ih => exact Align.del z ih
  | ins z _ ih => exact Align.ins z ih
  | @sub z w a b n _ ih =>
    have := Align.sub z w ih
    rw [Nat.add_right_comm] at this
    exact this

theorem align_snoc_right {a b : CStr} {n : Nat} (h : Align a b n) (y : Char) :
    Align a (b ++ [y]) (n + 1) := by
  induction h with
  | nil => exact Align.ins y Align.nil
  | del z _ ih => exact Align.del z ih
  | ins z _ ih => exact Align.ins z ih
  | @sub z w a b n _ ih =>
    have := Align.sub z w ih
    rw [Nat.add_right_comm] at this
    exact this

theorem align_snoc_both {a b : CStr} {n : Nat} (h : Align a b n) (x y : Char) :
    Align (a ++ [x]) (b ++ [y]) (n + substCost x y) := by
  induction h with
  | nil =>
    have := Align.sub x y Align.nil
    exact this
  | del z _ ih =>
    have := Align.del z ih
    rw [Nat.add_right_comm] at this
    exact this
  | ins z _ ih =>
    have := Align.ins z ih
    rw [Nat.add_right_comm] at this
    exact this
  | @sub z w a b n _ ih =>
    have := Align.sub z w ih
    rw [Nat.add_right_comm] at this
    exact this

theorem align_reverse {a b : CStr} {n : Nat} (h : Align a b n) :
    Align a.reverse b.reverse n := by
  induction h with
  | nil => exact Align.nil
  | del x _ ih => rw [List.reverse_cons]; exact align_snoc_left ih x
  | ins y _ ih => rw [List.reverse_cons]; exact align_snoc_right ih y
  | sub x y _ ih => rw [List.reverse_cons, List.reverse_cons]; exact align_snoc_both ih x y

theorem lev_reverse (a b : CStr) :
    levenshteinRef a.reverse b.reverse = levenshteinRef a b := by
  apply Nat.le_antisymm
  · exact lev_le_of_align (align_reverse (align_lev a b))
  · have := lev_le_of_align (align_reverse (align_lev a.reverse b.reverse))
    rwa [List.reverse_reverse, List.reverse_reverse] at this

theorem lev_snoc_snoc (a b : CStr) (x y : Char) :
    levenshteinRef (a ++ [x]) (b ++ [y]) =
      min (min (levenshteinRef (a ++ [x]) b + 1) (levenshteinRef a (b ++ [y]) + 1))
        (levenshteinRef a b + substCost x y) := by
  rw [← lev_reverse (a ++ [x]) (b ++ [y]), ← lev_reverse (a ++ [x]) b,
    ← lev_reverse a (b ++ [y]), ← lev_reverse a b]
  simp only [List.reverse_append, List.reverse_cons, List.reverse_nil, List.nil_append,
    List.singleton_append]
  rw [lev_cons_cons]

theorem editStep_cons (e : Char) {a b : CStr} (h : EditStep a b) : EditStep (e :: a) (e :: b) := by
  cases h with
  | insert p c s => exact EditStep.insert (e :: p) c s
  | delete p c s => exact EditStep.delete (e :: p) c s
  | substitute p c d s => exact EditStep.substitute (e :: p) c d s

theorem editChain_cons (e : Char) {n : Nat} {a b : CStr} (h : EditChain n a b) :
    EditChain n (e :: a) (e :: b) := by
  induction h with
  | done a => exact EditChain.done _
  | step hs _ ih => exact EditChain.step (editStep_cons e hs) ih

theorem editChain_of_align {a b : CStr} {n : Nat} (h : Align a b n) : EditChain n a b := by
  induction h with
  | nil => exact EditChain.done _
  | del x _ ih => exact EditChain.step (EditStep.delete [] x _) ih
  | ins y _ ih => exact EditChain.step (EditStep.insert [] y _) (editChain_cons y ih)
  | @sub x y a b n _ ih =>
    by_cases hxy : x = y
    · subst hxy
      rw [substCost_self]
      exact editChain_cons x ih
    · have : substCost x y = 1 := by simp [substCost, hxy]
      rw [this]
      exact EditChain.step (EditStep.substitute [] x y _) (editChain_cons y ih)

theorem lev_subst_head_le (c d : Char) (s : CStr) :
    ∀ t, levenshteinRef (c :: s) t ≤ levenshteinRef (d :: s) t + 1 := by
  intro t
  induction t with
  | nil => rw [lev_nil_right, lev_nil_right]; simp
  | cons y t ih =>
    rw [lev_cons_cons, lev_cons_cons]
    have := substCost_le_one c y
    omega

theorem lev_lift_cons (e : Char) {a b : CStr}
    (h : ∀ t, levenshteinRef a t ≤ levenshteinRef b t + 1) :
    ∀ t, levenshteinRef (e :: a) t ≤ levenshteinRef (e :: b) t + 1 := by
  intro t
  induction t with
  | nil =>
    have := h []
    rw [lev_nil_right, lev_nil_right] at *
    simp only [List.length_cons]; omega
  | cons y t ih =>
    rw [lev_cons_cons, lev_cons_cons]
    have h1 := h (y :: t)
    have h2 := h t
    omega

theorem lev_lift_append (p : CStr) {a b : CStr}
    (h : ∀ t, levenshteinRef a t ≤ levenshteinRef b t + 1) :
    ∀ t, levenshteinRef (p ++ a) t ≤ levenshteinRef (p ++ b) t + 1 := by
  induction p with
  | nil => exact h
  | cons e p ih => exact lev_lift_cons e ih

theorem lev_le_of_editStep {a b : CStr} (h : EditStep a b) :
    ∀ t, levenshteinRef a t ≤ levenshteinRef b t + 1 := by
  cases h with
  | insert p c s => exact lev_lift_append p (fun t => lev_le_cons_left c s t)
  | delete p c s => exact lev_lift_append p (fun t => le_trans (lev_cons_left_le c s t) (by omega))
  | substitute p c d s => exact lev_lift_append p (lev_subst_head_le c d s)

theorem lev_le_of_editChain {n : Nat} {a b : CStr} (h : EditChain n a b) :
    levenshteinRef a b ≤ n := by
  induction h with
  | done a => rw [lev_self]
  | step hs _ ih => exact le_trans (lev_le_of_editStep hs _) (by omega)

theorem getD_set_eq {α : Type} (l : List α) (i : Nat) (v d : α) (h : i < l.length) :
    (l.set i v).getD i d = v := by
  induction l generalizing i with
  | nil => simp at h
  | cons a l ih =>
    cases i with
    | zero => rfl
    | succ i =>
      simp only [List.length_cons, Nat.add_lt_add_iff_right] at h
      simpa using ih i h

theorem getD_set_ne {α : Type} (l : List α) (i j : Nat) (v d : α) (h : i ≠ j) :
    (l.set i v).getD j d = l.getD j d := by
  induction l generalizing i j with
  | nil => rfl
  | cons a l ih =>
    cases i with
    | zero =>
      cases j with
      | zero => exact absurd rfl h
      | succ j => rfl
    | succ i =>
      cases j with
      | zero => rfl
      | succ j =>
        have : i ≠ j := fun e => h (by rw [e])
        simpa using ih i j this

theorem take_succ_getD {α : Type} (l : List α) (k : Nat) (d : α) (h : k < l.length) :
    l.take (k + 1) = l.take k ++ [l.getD k d] := by
  induction l generalizing k with
  | nil => simp at h
  | cons a l ih =>
    cases k with
    | zero => simp
    | succ k =>
      simp only [List.length_cons, Nat.add_lt_add_iff_right] at h
      simp [ih k h]

theorem getD_range (n i : Nat) (h : i < n) : (List.range n).getD i 0 = i := by
  simp [List.getD_eq_getElem?_getD, List.getElem?_range h]

theorem rowInv_step (s1 s2 : CStr) (n k : Nat) (st : List Nat × Nat)
    (hn : n < s2.length) (hk : k < s1.length) (h : RowInv s1 s2 n k st) :
    RowInv s1 s2 n (k + 1) (levInnerStep s1 s2 (n + 1) st (k + 1)) := by
  obtain ⟨hlen, hnew, hold, hdiag⟩ := h
  have e1 := take_succ_getD s1 k '\x00' hk
  have e2 := take_succ_getD s2 n '\x00' hn
  have hval : levenshteinRef (s1.take (k + 1)) (s2.take (n + 1)) =
      min (min (levenshteinRef (s1.take (k + 1)) (s2.take n) + 1)
        (levenshteinRef (s1.take k) (s2.take (n + 1)) + 1))
        (levenshteinRef (s1.take k) (s2.take n) + substCost (s1.getD k '\x00') (s2.getD n '\x00')) := by
    conv => lhs; rw [e1, e2]
    rw [lev_snoc_snoc, ← e1, ← e2]
  have hcur := hold (k + 1) (Nat.lt_succ_self k) hk
  have hprev := hnew k (Nat.le_refl k)
  have hmin : (levInnerStep s1 s2 (n + 1) st (k + 1)).1 =
      st.1.set (k + 1) (levenshteinRef (s1.take (k + 1)) (s2.take (n + 1))) := by
    simp only [levInnerStep, Nat.add_sub_cancel]
    rw [hval, hcur, hprev, hdiag]
    congr 1
    unfold substCost
    split <;> split <;> split <;> omega
  refine ⟨?_, ?_, ?_, ?_⟩
  · rw [hmin, List.length_set]; exact hlen
  · intro i hi
    rw [hmin]
    by_cases hik : i = k + 1
    · subst hik
      rw [getD_set_eq]
      omega
    · rw [getD_set_ne _ _ _ _ _ (fun e => hik e.symm)]
      exact hnew i (by omega)
  · intro i hi hi2
    rw [hmin, getD_set_ne _ _ _ _ _ (by omega)]
    exact hold i (by omega) hi2
  · show st.1.getD (k + 1) 0 = _
    exact hcur

theorem rowInv_loop (s1 s2 : CStr) (n : Nat) (st : List Nat × Nat) (hn : n < s2.length)
    (h : RowInv s1 s2 n 0 st) :
    ∀ k, k ≤ s1.length →
      RowInv s1 s2 n k ((List.range' 1 k).foldl (levInnerStep s1 s2 (n + 1)) st) := by
  intro k
  induction k with
  | zero => intro _; exact h
  | succ k ih =>
    intro hk
    rw [List.range'_1_concat, List.foldl_append]
    simp only [List.foldl_cons, List.foldl_nil]
    rw [Nat.add_comm 1 k]
    exact rowInv_step s1 s2 n k _ hn (by omega) (ih (by omega))

theorem colInv_init (s1 s2 : CStr) : ColInv s1 s2 0 (List.range (s1.length + 1)) := by
  refine ⟨by simp, ?_⟩
  intro i hi
  rw [getD_range _ _ (by omega), List.take_zero, lev_nil_right, List.length_take]
  omega

theorem colInv_step (s1 s2 : CStr) (n : Nat) (column : List Nat) (hn : n < s2.length)
    (h : ColInv s1 s2 n column) : ColInv s1 s2 (n + 1) (levOuterStep s1 s2 column (n + 1)) := by
  obtain ⟨hlen, hcol⟩ := h
  have h0 : RowInv s1 s2 n 0 (column.set 0 (n + 1), n + 1 - 1) := by
    refine ⟨by rw [List.length_set]; exact hlen, ?_, ?_, ?_⟩
    · intro i hi
      have : i = 0 := by omega
      subst this
      rw [getD_set_eq _ _ _ _ (by omega), List.take_zero, lev_nil_left, List.length_take]
      omega
    · intro i hi hi2
      show (column.set 0 (n + 1)).getD i 0 = _
      rw [getD_set_ne _ _ _ _ _ (by omega)]
      exact hcol i hi2
    · show n + 1 - 1 = _
      rw [List.take_zero, lev_nil_left, List.length_take]
      omega
  have hfin := rowInv_loop s1 s2 n _ hn h0 s1.length (Nat.le_refl _)
  obtain ⟨hl, hnew, _, _⟩ := hfin
  exact ⟨hl, fun i hi => hnew i hi⟩

theorem colInv_loop (s1 s2 : CStr) :
    ∀ n, n ≤ s2.length →
      ColInv s1 s2 n ((List.range' 1 n).foldl (levOuterStep s1 s2) (List.range (s1.length + 1))) := by
  intro n
  induction n with
  | zero => intro _; exact colInv_init s1 s2
  | succ n ih =>
    intro hn
    rw [List.range'_1_concat, List.foldl_append]
    simp only [List.foldl_cons, List.foldl_nil]
    rw [Nat.add_comm 1 n]
    exact colInv_step s1 s2 n _ (by omega) (ih (by omega))

theorem levDist_eq_ref (s1 s2 : CStr) :
    calculateLevenshteinDistance s1 s2 = levenshteinRef s1 s2 := by
  have h := (colInv_loop s1 s2 s2.length (Nat.le_refl _)).2 s1.length (Nat.le_refl _)
  rw [List.take_length, List.take_length] at h
  exact h

theorem length_five {α : Type} (l : List α) (h : l.length = 5) :
    ∃ a b c d e, l = [a, b, c, d, e] := by
  match l, h with
  | [a, b, c, d, e], _ => exact ⟨a, b, c, d, e, rfl⟩

theorem range_limit : List.range LEVENSHTEIN_LIST_LIMIT = [0, 1, 2, 3, 4] := by decide

theorem insertEntry_spec (entry : CStr) (dist : Nat) (data : SearchTaskData)
    (hw : data.closestWords.length = 5) (hd : data.editDist.length = 5) :
    let r := insertEntry entry dist (List.range LEVENSHTEIN_LIST_LIMIT) data
    r.inputStr = data.inputStr ∧ r.lex = data.lex ∧ r.closestWords.length = 5 ∧
      r.editDist.length = 5 ∧
      slots r = (insertAfterLE (entry, dist) (slots data)).take 5 := by
  obtain ⟨inputStr, lex, cw, ed⟩ := data
  simp only at hw hd
  obtain ⟨w0, w1, w2, w3, w4, rfl⟩ := length_five cw hw
  obtain ⟨d0, d1, d2, d3, d4, rfl⟩ := length_five ed hd
  rw [range_limit]
  by_cases h0 : dist < d0
  · simp [insertEntry, shiftDown, shiftStep, slots, insertAfterLE, h0, LEVENSHTEIN_LIST_LIMIT,
      List.range', List.getD]
  · by_cases h1 : dist < d1
    · simp [insertEntry, shiftDown, shiftStep, slots, insertAfterLE, h0, h1,
        LEVENSHTEIN_LIST_LIMIT, List.range', List.getD]
    · by_cases h2 : dist < d2
      · simp [insertEntry, shiftDown, shiftStep, slots, insertAfterLE, h0, h1, h2,
          LEVENSHTEIN_LIST_LIMIT, List.range', List.getD]
      · by_cases h3 : dist < d3
        · simp [insertEntry, shiftDown, shiftStep, slots, insertAfterLE, h0, h1, h2, h3,
            LEVENSHTEIN_LIST_LIMIT, List.range', List.getD]
        · by_cases h4 : dist < d4
          · simp [insertEntry, shiftDown, shiftStep, slots, insertAfterLE, h0, h1, h2, h3, h4,
              LEVENSHTEIN_LIST_LIMIT, List.range', List.getD]
          · simp [insertEntry, shiftDown, shiftStep, slots, insertAfterLE, h0, h1, h2, h3, h4,
              LEVENSHTEIN_LIST_LIMIT, List.range', List.getD]

theorem foldl_searchStep_spec (ws : List CStr) :
    ∀ data : SearchTaskData, data.closestWords.length = 5 → data.editDist.length = 5 →
      (ws.foldl searchStep data).inputStr = data.inputStr ∧
      (ws.foldl searchStep data).lex = data.lex ∧
      (ws.foldl searchStep data).closestWords.length = 5 ∧
      (ws.foldl searchStep data).editDist.length = 5 ∧
      slots (ws.foldl searchStep data) = topKFold data.inputStr (slots data) ws := by
  induction ws with
  | nil => intro data hw hd; exact ⟨rfl, rfl, hw, hd, rfl⟩
  | cons w ws ih =>
    intro data hw hd
    obtain ⟨h1, h2, h3, h4, h5⟩ :=
      insertEntry_spec w (calculateLevenshteinDistance data.inputStr w) data hw hd
    obtain ⟨k1, k2, k3, k4, k5⟩ := ih (searchStep data w) h3 h4
    simp only [List.foldl_cons]
    refine ⟨k1.trans h1, k2.trans h2, k3, k4, ?_⟩
    rw [k5]
    show topKFold (searchStep data w).inputStr (slots (searchStep data w)) ws = _
    have e1 : (searchStep data w).inputStr = data.inputStr := h1
    have e5 : slots (searchStep data w) =
        (insertAfterLE (w, calculateLevenshteinDistance data.inputStr w) (slots data)).take 5 := h5
    rw [e1, e5]
    rfl

theorem lev_le_max (a : CStr) : ∀ b, levenshteinRef a b ≤ max a.length b.length := by
  induction a with
  | nil => intro b; rw [lev_nil_left]; simp
  | cons x a ih =>
    intro b
    cases b with
    | nil => rw [lev_nil_right]; simp
    | cons y b =>
      rw [lev_cons_cons]
      have h := ih b
      have hc := substCost_le_one x y
      simp only [List.length_cons]
      omega

theorem slots_initTaskData (token : CStr) (lex : Dictionary) :
    slots (initTaskData token lex) = List.replicate 5 ([], 999999) := by
  simp [slots, initTaskData, LEVENSHTEIN_LIST_LIMIT, List.replicate]

theorem searchLoop_spec (token : CStr) (lex : Dictionary) (n : Nat) :
    (searchLoop (initTaskData token lex) n).inputStr = token.take MAX_INPUT_LENGTH ∧
    (searchLoop (initTaskData token lex) n).lex = lex ∧
    (searchLoop (initTaskData token lex) n).closestWords.length = 5 ∧
    (searchLoop (initTaskData token lex) n).editDist.length = 5 ∧
    slots (searchLoop (initTaskData token lex) n) =
      topKFold (token.take MAX_INPUT_LENGTH) (List.replicate 5 ([], 999999)) (lex.entries.take n) := by
  have h := foldl_searchStep_spec (lex.entries.take n) (initTaskData token lex)
    (by simp [initTaskData, LEVENSHTEIN_LIST_LIMIT]) (by simp [initTaskData, LEVENSHTEIN_LIST_LIMIT])
  rw [slots_initTaskData] at h
  exact h

theorem levDist_self (s : CStr) : calculateLevenshteinDistance s s = 0 := by
  rw [levDist_eq_ref, lev_self]

theorem isalpha_iff (c : Char) : isalpha c = true ↔ isAsciiLetter c := by
  simp only [isalpha, Char.isAlpha, Char.isUpper, Char.isLower, isAsciiLetter, Bool.or_eq_true,
    Bool.and_eq_true, decide_eq_true_eq, ge_iff_le, UInt32.le_def, Char.toNat]
  rfl

theorem isValidInput_iff_all (input : CStr) :
    isValidInput input = true ↔ ∀ c ∈ input, allowedChar c := by
  induction input with
  | nil => simp [isValidInput]
  | cons c rest ih =>
    simp only [isValidInput, List.mem_cons, forall_eq_or_imp]
    by_cases h : allowedChar c
    · have h' : (!isalpha c && c != ' ') = false := by
        rcases h with h | h
        · simp [(isalpha_iff c).mpr h]
        · simp [h]
      simp [h', h, ih]
    · have h1 : isalpha c = false := by
        cases hc : isalpha c with
        | false => rfl
        | true => exact absurd (Or.inl ((isalpha_iff c).mp hc)) h
      have h2 : c ≠ ' ' := fun e => h (Or.inr e)
      simp [h1, h2, h]

theorem cstr_terminateAtLineEnd (bytes : List Char) :
    cstr (terminateAtLineEnd bytes) = sessionLine bytes := by
  induction bytes with
  | nil => rfl
  | cons c rest ih =>
    unfold terminateAtLineEnd
    by_cases h : c = '\r' ∨ c = '\n'
    · rw [if_pos h]
      rcases h with h | h <;> subst h <;> simp [cstr, sessionLine]
    · rw [if_neg h]
      have h1 : c ≠ '\r' := fun e => h (Or.inl e)
      have h2 : c ≠ '\n' := fun e => h (Or.inr e)
      by_cases h0 : c = '\x00'
      · subst h0
        simp [cstr, sessionLine]
      · have ih2 : List.takeWhile (fun c => c != '\x00') (terminateAtLineEnd rest) =
            List.takeWhile (fun c => c != '\r' && c != '\n' && c != '\x00') rest := ih
        simp [cstr, sessionLine, h0, h1, h2, ih2]

theorem validate_eq_none_iff (input : CStr) :
    validate input = none ↔ input.length ≤ MAX_INPUT_LENGTH ∧ ∀ c ∈ input, allowedChar c := by
  unfold validate
  by_cases hl : input.length > MAX_INPUT_LENGTH
  · simp [hl]
  · have hl2 : input.length ≤ MAX_INPUT_LENGTH := by omega
    rw [if_neg hl]
    by_cases hv : isValidInput input = true
    · simp only [hv, Bool.not_true, Bool.false_eq_true, if_false, true_iff]
      exact ⟨hl2, (isValidInput_iff_all input).mp hv⟩
    · have hv2 : isValidInput input = false := by
        cases h : isValidInput input with
        | false => rfl
        | true => exact absurd h hv
      simp only [hv2, Bool.not_false, if_true]
      constructor
      · intro h; cases h
      · intro h
        exact absurd ((isValidInput_iff_all input).mpr h.2) hv

theorem validate_some_cases (input : CStr) (msg : Msg) (h : validate input = some msg) :
    msg = Msg.errTooLong MAX_INPUT_LENGTH ∨ msg = Msg.errInvalidChars := by
  unfold validate at h
  split at h
  · left; cases h; rfl
  · split at h
    · right; cases h; rfl
    · cases h

theorem matchEvents_noError (clientSock : Nat) (data : SearchTaskData) :
    ∀ e ∈ matchEvents clientSock data, isErrorLine e = false := by
  intro e he
  unfold matchEvents at he
  rcases List.mem_append.mp he with h | h
  · rcases List.mem_append.mp h with h | h
    · rw [List.mem_singleton] at h; subst h; rfl
    · obtain ⟨j, _, hj⟩ := List.mem_flatMap.mp h
      rcases List.mem_append.mp hj with h | h
      · rw [List.mem_singleton] at h; subst h; rfl
      · by_cases hc : j < LEVENSHTEIN_LIST_LIMIT - 1
        · rw [if_pos hc, List.mem_singleton] at h; subst h; rfl
        · rw [if_neg hc] at h; cases h
  · rw [List.mem_singleton] at h; subst h; rfl

theorem notify_noError (fd : Nat) (msg : Msg) (hm : isErrorLine (Event.send fd msg) = false) :
    ∀ e ∈ notifyErrorAndDisconnect fd msg, isErrorLine e = false := by
  intro e he
  unfold notifyErrorAndDisconnect at he
  by_cases h0 : fd = 0
  · simp [h0] at he
    rcases he with h | h | h | h
    · subst h; rw [h0] at hm; exact hm
    · subst h; rfl
    · subst h; rfl
    · subst h; rfl
  · simp [h0] at he
    rcases he with h | h | h
    · subst h; exact hm
    · subst h; rfl
    · subst h; rfl

theorem resolveTokens_noError (clientSock : Nat) (tasks : List SearchTaskData) :
    ∀ (i : Nat) (finalOutput : CStr) (s : Session),
      (∀ e ∈ s.events, isErrorLine e = false) →
      ∀ e ∈ (resolveTokens clientSock tasks i finalOutput s).2.events, isErrorLine e = false := by
  induction tasks with
  | nil => intro i out s hs; exact hs
  | cons data more ih =>
    intro i out s hs
    have hlist : ∀ e ∈ [Event.send clientSock (Msg.wordLine (i + 1) data.inputStr)]
        ++ matchEvents clientSock data, isErrorLine e = false := by
      intro e he
      rcases List.mem_append.mp he with h | h
      · simp at h; subst h; rfl
      · exact matchEvents_noError clientSock data e h
    have hprompt : ∀ e ∈ [Event.send clientSock (Msg.notPresent data.inputStr),
        Event.send clientSock Msg.askAdd], isErrorLine e = false := by
      intro e he
      simp at he
      rcases he with h | h <;> subst h <;> rfl
    unfold resolveTokens
    simp only
    split
    · apply ih
      intro e he
      rcases List.mem_append.mp he with h | h
      · exact hs e h
      · exact hlist e h
    · split
      · apply ih
        intro e he
        simp only [List.mem_append] at he
        rcases he with ((h | h) | h) | h
        · exact hs e h
        · exact hlist e (List.mem_append.mpr h)
        · exact hprompt e h
        · exact notify_noError 1 Msg.wordAdded rfl e h
      · split
        · intro e he
          simp only [List.mem_append] at he
          rcases he with (((h | h) | h) | h) | h
          · exact hs e h
          · exact hlist e (List.mem_append.mpr h)
          · exact hprompt e h
          · exact notify_noError clientSock Msg.closedByUser rfl e h
          · simp at h; subst h; rfl
        · apply ih
          intro e he
          simp only [List.mem_append] at he
          rcases he with ((h | h) | h) | h
          · exact hs e h
          · exact hlist e (List.mem_append.mpr h)
          · exact hprompt e h
          · exact notify_noError 1 Msg.wordNotAdded rfl e h

theorem levDist_comm (a b : CStr) :
    calculateLevenshteinDistance a b = calculateLevenshteinDistance b a := by
  rw [levDist_eq_ref, levDist_eq_ref, lev_comm]

theorem levDist_ge_sub (a b : CStr) :
    a.length - b.length ≤ calculateLevenshteinDistance a b ∧
      b.length - a.length ≤ calculateLevenshteinDistance a b := by
  rw [levDist_eq_ref]; exact lev_ge_sub a b

theorem levDist_le_max (a b : CStr) :
    calculateLevenshteinDistance a b ≤ max a.length b.length := by
  rw [levDist_eq_ref]; exact lev_le_max a b

theorem handle_rejected (clientSock : Nat) (mainLex : Dictionary) (world : World)
    (bytes : List Char) (rest : List RecvEvent) (msg : Msg)
    (hrecv : recv 109 world.recvs = (some bytes, rest))
    (hv : validate (sessionLine bytes) = some msg) :
    handleClientConnection clientSock mainLex world =
      { events := [Event.send clientSock Msg.greeting, Event.send clientSock Msg.askInput]
          ++ notifyErrorAndDisconnect clientSock msg
        mainLex := mainLex
        world := { world with recvs := rest } } := by
  have hcap : MAX_INPUT_LENGTH + 10 - 1 = 109 := rfl
  unfold handleClientConnection
  simp only [hcap, hrecv, cstr_terminateAtLineEnd, hv]

theorem handle_accepted_noError (clientSock : Nat) (mainLex : Dictionary) (world : World)
    (bytes : List Char) (rest : List RecvEvent)
    (hrecv : recv 109 world.recvs = (some bytes, rest))
    (hv : validate (sessionLine bytes) = none) :
    ∀ e ∈ (handleClientConnection clientSock mainLex world).events, isErrorLine e = false := by
  have hcap : MAX_INPUT_LENGTH + 10 - 1 = 109 := rfl
  have hhello : ∀ e ∈ (Session.mk [Event.send clientSock Msg.greeting,
      Event.send clientSock Msg.askInput] mainLex { world with recvs := rest }).events,
      isErrorLine e = false := by
    intro e he
    simp at he
    rcases he with h | h <;> subst h <;> rfl
  have hres := fun tasks => resolveTokens_noError clientSock tasks 0 [] _ hhello
  unfold handleClientConnection
  simp only [hcap, hrecv, cstr_terminateAtLineEnd, hv]
  intro e he
  have hall := hres (List.map (fun token => searchSimilarWordsThread (initTaskData token mainLex))
    (tokenize (convertToLowercase (sessionLine bytes))))
  split at he
  · rename_i s heq
    rw [heq] at hall
    exact hall e he
  · rename_i out s heq
    rw [heq] at hall
    simp only [List.mem_append] at he
    rcases he with h | h
    · exact hall e h
    · simp at h
      rcases h with h | h | h | h <;> subst h <;> rfl

theorem validate_isSome_iff (input : CStr) :
    (validate input).isSome = true ↔
      (MAX_INPUT_LENGTH < input.length ∨ ∃ c ∈ input, ¬ (isAsciiLetter c ∨ c = ' ')) := by
  have h := validate_eq_none_iff input
  constructor
  · intro hs
    by_contra hc
    push_neg at hc
    have hn := h.mpr ⟨by omega, hc.2⟩
    rw [hn] at hs
    cases hs
  · intro hr
    cases hv : validate input with
    | some m => rfl
    | none =>
      obtain ⟨hl, ha⟩ := h.mp hv
      rcases hr with hr | ⟨c, hc, hnc⟩
      · omega
      · exact absurd (ha c hc) hnc

theorem filter_orderedInsert (d : Nat) (a : CStr × Nat) (l : List (CStr × Nat)) :
    (List.orderedInsert distLE a l).filter (fun p => p.2 == d) =
      (a :: l).filter (fun p => p.2 == d) := by
  induction l with
  | nil => rfl
  | cons b l ih =>
    by_cases hab : distLE a b
    · rw [List.orderedInsert, if_pos hab]
    · rw [List.orderedInsert, if_neg hab, List.filter_cons, ih]
      have hlt : b.2 < a.2 := by
        unfold distLE at hab
        omega
      by_cases hbd : b.2 = d
      · have had : ¬ a.2 = d := by omega
        simp [List.filter_cons, hbd, had]
      · simp [List.filter_cons, hbd]

/-- The reference sort is the stable sort by distance: its result is in ascending order of
distance, it is a rearrangement of the list, and the candidates of any one distance stand in it
in the order they have in the list. -/
theorem insertionSort_distLE_stable (l : List (CStr × Nat)) :
    List.Sorted distLE (l.insertionSort distLE) ∧
    List.Perm (l.insertionSort distLE) l ∧
    ∀ d : Nat, (l.insertionSort distLE).filter (fun p => p.2 == d) =
      l.filter (fun p => p.2 == d) := by
  refine ⟨List.sorted_insertionSort distLE l, List.perm_insertionSort distLE l, ?_⟩
  intro d
  induction l with
  | nil => rfl
  | cons a l ih =>
    rw [List.insertionSort, filter_orderedInsert, List.filter_cons, List.filter_cons, ih]

theorem levDist_lt_sentinel_of_fit (token w : CStr) (ht : token.length ≤ MAX_INPUT_LENGTH)
    (hw : w.length ≤ MAX_INPUT_LENGTH) : calculateLevenshteinDistance token w < 999999 := by
  have h := levDist_le_max token w
  have hm : MAX_INPUT_LENGTH = 100 := rfl
  omega

/-- C1: for every pair of strings, `calculateLevenshteinDistance a b` equals the reference
recursive Levenshtein distance; `a` is transformed into `b` by exactly that many
single-character insertions, deletions and substitutions, and by no fewer. -/
theorem levenshtein_is_minimal_edit_count (a b : CStr) :
    calculateLevenshteinDistance a b = levenshteinRef a b ∧
    EditChain (calculateLevenshteinDistance a b) a b ∧
    ∀ n, EditChain n a b → calculateLevenshteinDistance a b ≤ n := by
  refine ⟨levDist_eq_ref a b, ?_, ?_⟩
  · rw [levDist_eq_ref]
    exact editChain_of_align (align_lev a b)
  · intro n h
    rw [levDist_eq_ref]
    exact lev_le_of_editChain h

/-- Witness for C1: one substitution turns "a" into "b", so their distance is at most 1. -/
theorem levenshtein_is_minimal_edit_count_witness :
    EditChain 1 ['a'] ['b'] ∧ calculateLevenshteinDistance ['a'] ['b'] ≤ 1 :=
  ⟨EditChain.step (EditStep.substitute [] 'a' 'b' []) (EditChain.done ['b']),
    (levenshtein_is_minimal_edit_count ['a'] ['b']).2.2 1
      (EditChain.step (EditStep.substitute [] 'a' 'b' []) (EditChain.done ['b']))⟩

/-- C4: the distance of every string to itself is 0. -/
theorem distance_to_itself_is_zero (s : CStr) : calculateLevenshteinDistance s s = 0 :=
  levDist_self s

/-- C5: the distance is symmetric in its two arguments. -/
theorem distance_is_symmetric (a b : CStr) :
    calculateLevenshteinDistance a b = calculateLevenshteinDistance b a :=
  levDist_comm a b

/-- C6: the distance is at least the absolute difference of the two lengths. -/
theorem distance_at_least_length_difference (a b : CStr) :
    Int.natAbs ((a.length : Int) - (b.length : Int)) ≤ calculateLevenshteinDistance a b := by
  have h := levDist_ge_sub a b
  omega

/-- C8: `isValidInput` accepts a string exactly when every character of it is an ASCII letter
or a space; it rejects "hello3" and "hello!" and accepts "hello world". -/
theorem isValidInput_accepts_letters_and_spaces (input : CStr) :
    (isValidInput input = true ↔ ∀ c ∈ input, isAsciiLetter c ∨ c = ' ') ∧
    isValidInput "hello3".toList = false ∧
    isValidInput "hello!".toList = false ∧
    isValidInput "hello world".toList = true :=
  ⟨isValidInput_iff_all input, by decide, by decide, by decide⟩

/-- Counterexample to C9 as stated: inputs with two consecutive spaces, a leading space or a
trailing space pass the validation, and the session goes on to list the first word. -/
theorem validate_accepts_extra_spaces_counterexample :
    validate "hello  world".toList = none ∧
    validate " hello".toList = none ∧
    validate "hello ".toList = none ∧
    Event.send 4 (Msg.wordLine 1 "hello".toList) ∈
      (handleClientConnection 4 catDict
        ⟨[RecvEvent.data "hello  world\r\n".toList], true, []⟩).events := by
  refine ⟨by decide, by decide, by decide, ?_⟩
  decide

/-- C9 (amended): the validation refuses an input line exactly when it is longer than 100
characters or contains a character that is neither a letter nor a space; where the spaces stand
and how many there are is not checked. -/
theorem validate_rejects_iff (input : CStr) :
    (validate input).isSome = true ↔
      (MAX_INPUT_LENGTH < input.length ∨ ∃ c ∈ input, ¬ (isAsciiLetter c ∨ c = ' ')) :=
  validate_isSome_iff input

/-- Witness for C9 (amended): "hello3" is refused because of the digit. -/
theorem validate_rejects_iff_witness :
    (MAX_INPUT_LENGTH < "hello3".toList.length ∨
      ∃ c ∈ "hello3".toList, ¬ (isAsciiLetter c ∨ c = ' ')) ∧
    (validate "hello3".toList).isSome = true :=
  ⟨by decide, (validate_rejects_iff "hello3".toList).mpr (by decide)⟩

/-- Counterexample to C10 as stated: the received bytes are a, b, NUL, !, CR, LF. The bytes
before the first CR or LF contain "!" and NUL, yet the session sees the line "ab", sends no
error line and completes with the summary. -/
theorem session_accepts_line_cut_by_nul_counterexample :
    (∃ c ∈ receivedLine ['a', 'b', '\x00', '!', '\r', '\n'], ¬ (isAsciiLetter c ∨ c = ' ')) ∧
    (handleClientConnection 4 ⟨["ab".toList]⟩
      ⟨[RecvEvent.data ['a', 'b', '\x00', '!', '\r', '\n']], true, []⟩).events =
      [Event.send 4 Msg.greeting, Event.send 4 Msg.askInput] ++
      [Event.send 4 (Msg.wordLine 1 "ab".toList)] ++
      matchEvents 4 (searchSimilarWordsThread (initTaskData "ab".toList ⟨["ab".toList]⟩)) ++
      [Event.send 4 (Msg.inputLine "ab".toList), Event.send 4 (Msg.outputLine "ab ".toList),
        Event.send 4 Msg.goodbye, Event.close 4] := by
  constructor
  · decide
  · decide

/-- C10 (amended): let the line be the bytes the first `recv` delivers up to the first CR, LF
or NUL. If it is longer than 100 characters or contains a character that is neither a letter
nor a space, the session sends one error line and the "Check the other word..." line, shuts the
socket down, and does nothing else: no word listing, no prompt, no summary, the dictionary and
the word file unchanged. If it has at most 100 characters, all letters or spaces, the session
sends no error line. -/
theorem session_rejects_invalid_line (clientSock : Nat) (mainLex : Dictionary) (world : World)
    (bytes : List Char) (rest : List RecvEvent)
    (hrecv : recv 109 world.recvs = (some bytes, rest)) :
    ((MAX_INPUT_LENGTH < (sessionLine bytes).length ∨
        ∃ c ∈ sessionLine bytes, ¬ (isAsciiLetter c ∨ c = ' ')) →
      ∃ errorMsg, (errorMsg = Msg.errTooLong 100 ∨ errorMsg = Msg.errInvalidChars) ∧
        handleClientConnection clientSock mainLex world =
          Session.mk
            ([Event.send clientSock Msg.greeting, Event.send clientSock Msg.askInput,
              Event.send clientSock errorMsg, Event.send clientSock Msg.checkOtherWord,
              Event.shutdown clientSock]
              ++ (if clientSock = 0 then [Event.close clientSock] else []))
            mainLex
            (World.mk rest world.fileWritable world.file)) ∧
    (((sessionLine bytes).length ≤ MAX_INPUT_LENGTH ∧
        ∀ c ∈ sessionLine bytes, isAsciiLetter c ∨ c = ' ') →
      ∀ e ∈ (handleClientConnection clientSock mainLex world).events, isErrorLine e = false) := by
  constructor
  · intro hbad
    have hsome := (validate_isSome_iff (sessionLine bytes)).mpr hbad
    cases hv : validate (sessionLine bytes) with
    | none => rw [hv] at hsome; cases hsome
    | some msg =>
      refine ⟨msg, validate_some_cases _ msg hv, ?_⟩
      rw [handle_rejected clientSock mainLex world bytes rest msg hrecv hv]
      rfl
  · intro hok
    exact handle_accepted_noError clientSock mainLex world bytes rest hrecv
      ((validate_eq_none_iff _).mpr hok)

/-- Witness for C10 (amended): the line "hello3" is refused with the error line about
characters; the line "hello world" is not refused. -/
theorem session_rejects_invalid_line_witness :
    (recv 109 [RecvEvent.data "hello3\r\n".toList] = (some "hello3\r\n".toList, []) ∧
      (MAX_INPUT_LENGTH < (sessionLine "hello3\r\n".toList).length ∨
        ∃ c ∈ sessionLine "hello3\r\n".toList, ¬ (isAsciiLetter c ∨ c = ' ')) ∧
      ∃ errorMsg, (errorMsg = Msg.errTooLong 100 ∨ errorMsg = Msg.errInvalidChars) ∧
        handleClientConnection 4 catDict ⟨[RecvEvent.data "hello3\r\n".toList], true, []⟩ =
          Session.mk
            ([Event.send 4 Msg.greeting, Event.send 4 Msg.askInput,
              Event.send 4 errorMsg, Event.send 4 Msg.checkOtherWord,
              Event.shutdown 4] ++ (if 4 = 0 then [Event.close 4] else []))
            catDict
            (World.mk [] true [])) ∧
    (recv 109 [RecvEvent.data "hello world\r\n".toList] = (some "hello world\r\n".toList, []) ∧
      ((sessionLine "hello world\r\n".toList).length ≤ MAX_INPUT_LENGTH ∧
        ∀ c ∈ sessionLine "hello world\r\n".toList, isAsciiLetter c ∨ c = ' ') ∧
      ∀ e ∈ (handleClientConnection 4 catDict
          ⟨[RecvEvent.data "hello world\r\n".toList], true, []⟩).events,
        isErrorLine e = false) :=
  ⟨⟨by decide, by decide,
    (session_rejects_invalid_line 4 catDict ⟨[RecvEvent.data "hello3\r\n".toList], true, []⟩
      "hello3\r\n".toList [] (by decide)).1 (by decide)⟩,
   ⟨by decide, by decide,
    (session_rejects_invalid_line 4 catDict ⟨[RecvEvent.data "hello world\r\n".toList], true, []⟩
      "hello world\r\n".toList [] (by decide)).2 (by decide)⟩⟩

/-! ## Lemmas on characters, tokens, the resolution loop and the word file -/

theorem tolower_toNat (c : Char) :
    (tolower c).toNat = if 65 ≤ c.toNat ∧ c.toNat ≤ 90 then c.toNat + 32 else c.toNat := by
  unfold tolower Char.toLower
  by_cases h : c.toNat ≥ 65 ∧ c.toNat ≤ 90
  · have h' : 65 ≤ c.toNat ∧ c.toNat ≤ 90 := h
    simp only [h, h', and_self, if_true]
    obtain ⟨h1, h2⟩ := h
    generalize c.toNat = n at h1 h2
    interval_cases n <;> rfl
  · have h' : ¬ (65 ≤ c.toNat ∧ c.toNat ≤ 90) := h
    simp only [h, h', if_false]

theorem char_eq_of_toNat {c d : Char} (h : c.toNat = d.toNat) : c = d := by
  rw [← Char.ofNat_toNat c, ← Char.ofNat_toNat d, h]

theorem tolower_eq_space (c : Char) : tolower c = ' ' ↔ c = ' ' := by
  constructor
  · intro h
    have h1 := tolower_toNat c
    rw [h] at h1
    have h2 : (' ' : Char).toNat = 32 := rfl
    rw [h2] at h1
    apply char_eq_of_toNat
    rw [h2]
    split at h1 <;> omega
  · intro h; rw [h]; rfl

theorem tolower_eq_y (c : Char) : tolower c = 'y' ↔ c = 'y' ∨ c = 'Y' := by
  constructor
  · intro h
    have h1 := tolower_toNat c
    rw [h] at h1
    have h2 : ('y' : Char).toNat = 121 := rfl
    have h3 : ('Y' : Char).toNat = 89 := rfl
    rw [h2] at h1
    split at h1
    · right; apply char_eq_of_toNat; rw [h3]; omega
    · left; apply char_eq_of_toNat; rw [h2]; omega
  · intro h; rcases h with h | h <;> rw [h] <;> rfl

theorem tolower_eq_q (c : Char) : tolower c = 'q' ↔ c = 'q' ∨ c = 'Q' := by
  constructor
  · intro h
    have h1 := tolower_toNat c
    rw [h] at h1
    have h2 : ('q' : Char).toNat = 113 := rfl
    have h3 : ('Q' : Char).toNat = 81 := rfl
    rw [h2] at h1
    split at h1
    · right; apply char_eq_of_toNat; rw [h3]; omega
    · left; apply char_eq_of_toNat; rw [h2]; omega
  · intro h; rcases h with h | h <;> rw [h] <;> rfl

theorem tolower_not_upper (c : Char) : ¬ (65 ≤ (tolower c).toNat ∧ (tolower c).toNat ≤ 90) := by
  rw [tolower_toNat]
  split <;> omega

theorem tolower_lowerLetter (c : Char) (h : isAsciiLetter c) : isLowerLetter (tolower c) := by
  unfold isLowerLetter
  unfold isAsciiLetter at h
  rw [tolower_toNat]
  split <;> omega

theorem lowerLetter_ne_space (c : Char) (h : isLowerLetter c) : c ≠ ' ' := by
  intro e
  rw [e] at h
  exact absurd h (by decide)

theorem strtokAux_append_nospace (w : CStr) (hw : ∀ c ∈ w, c ≠ ' ') :
    ∀ (rest cur : CStr), strtokAux (w ++ rest) cur = strtokAux rest (cur ++ w) := by
  induction w with
  | nil => intro rest cur; simp
  | cons c w ih =>
    intro rest cur
    have hc : c ≠ ' ' := hw c (List.mem_cons_self _ _)
    have hw' : ∀ d ∈ w, d ≠ ' ' := fun d hd => hw d (List.mem_cons_of_mem _ hd)
    rw [List.cons_append, strtokAux, if_neg hc, ih hw']
    simp

theorem tokenize_spaceJoin (vs : List CStr)
    (hv : ∀ v ∈ vs, v ≠ [] ∧ ∀ c ∈ v, c ≠ ' ') : tokenize (spaceJoin vs) = vs := by
  unfold tokenize
  induction vs with
  | nil => rfl
  | cons v vs ih =>
    obtain ⟨hne, hns⟩ := hv v (List.mem_cons_self _ _)
    have hrest : ∀ u ∈ vs, u ≠ [] ∧ ∀ c ∈ u, c ≠ ' ' :=
      fun u hu => hv u (List.mem_cons_of_mem _ hu)
    cases vs with
    | nil =>
      have h := strtokAux_append_nospace v hns [] []
      simp only [List.append_nil, List.nil_append] at h
      show strtokAux v [] = [v]
      rw [h, strtokAux, if_neg hne]
    | cons u us =>
      have h := strtokAux_append_nospace v hns (' ' :: spaceJoin (u :: us)) []
      simp only [List.nil_append] at h
      show strtokAux (v ++ ' ' :: spaceJoin (u :: us)) [] = v :: u :: us
      rw [h, strtokAux, if_pos rfl, if_neg hne, ih hrest]

theorem convertToLowercase_spaceJoin (ws : List CStr) :
    convertToLowercase (spaceJoin ws) = spaceJoin (ws.map convertToLowercase) := by
  induction ws with
  | nil => rfl
  | cons w ws ih =>
    cases ws with
    | nil => rfl
    | cons u us =>
      have ih' : List.map tolower (spaceJoin (u :: us)) =
          spaceJoin (List.map convertToLowercase (u :: us)) := ih
      have hsp : tolower ' ' = ' ' := rfl
      simp only [spaceJoin, convertToLowercase, List.map_cons, List.map_append, ih', hsp]

theorem mem_spaceJoin (ws : List CStr) (c : Char) (h : c ∈ spaceJoin ws) :
    c = ' ' ∨ ∃ w ∈ ws, c ∈ w := by
  induction ws with
  | nil => simp [spaceJoin] at h
  | cons w ws ih =>
    cases ws with
    | nil => exact Or.inr ⟨w, List.mem_cons_self _ _, h⟩
    | cons u us =>
      simp only [spaceJoin, List.mem_append, List.mem_cons] at h
      rcases h with h | h | h
      · exact Or.inr ⟨w, List.mem_cons_self _ _, h⟩
      · exact Or.inl h
      · rcases ih h with h | ⟨x, hx, hc⟩
        · exact Or.inl h
        · exact Or.inr ⟨x, List.mem_cons_of_mem _ hx, hc⟩

theorem strtokAux_count (l : CStr) :
    ∀ cur : CStr, 2 * (strtokAux l cur).length ≤ l.length + (if cur = [] then 1 else 2) := by
  induction l with
  | nil =>
    intro cur
    by_cases h : cur = []
    · simp [strtokAux, h]
    · simp [strtokAux, h]
  | cons c l ih =>
    intro cur
    by_cases hc : c = ' '
    · by_cases h : cur = []
      · have := ih []
        simp only [if_true] at this
        simp only [strtokAux, hc, h, if_true, List.length_cons]
        omega
      · have := ih []
        simp only [if_true] at this
        simp only [strtokAux, hc, h, if_true, if_false, List.length_cons]
        omega
    · have hne : cur ++ [c] ≠ [] := by simp
      have := ih (cur ++ [c])
      simp only [hne, if_false] at this
      simp only [strtokAux, hc, if_false, List.length_cons]
      split <;> omega

theorem strtokAux_total (l : CStr) :
    ∀ cur : CStr, ((strtokAux l cur).flatMap (fun t => t ++ [' '])).length ≤
      l.length + cur.length + 1 := by
  induction l with
  | nil =>
    intro cur
    by_cases h : cur = []
    · simp [strtokAux, h]
    · simp [strtokAux, h]
  | cons c l ih =>
    intro cur
    by_cases hc : c = ' '
    · by_cases h : cur = []
      · have := ih []
        simp only [List.length_nil] at this
        simp only [strtokAux, hc, h, if_true, List.length_cons, List.length_nil]
        omega
      · have := ih []
        simp only [List.length_nil] at this
        simp only [strtokAux, hc, h, if_true, if_false, List.length_cons, List.flatMap_cons,
          List.length_append, List.length_nil]
        omega
    · have := ih (cur ++ [c])
      simp only [List.length_append, List.length_cons, List.length_nil] at this
      simp only [strtokAux, hc, if_false, List.length_cons]
      omega

theorem strtokAux_mem (l : CStr) :
    ∀ (cur t : CStr), t ∈ strtokAux l cur →
      t ≠ [] ∧ ∀ c ∈ t, (c ∈ cur ∨ c ∈ l) ∧ ((∀ d ∈ cur, d ≠ ' ') → c ≠ ' ') := by
  induction l with
  | nil =>
    intro cur t ht
    by_cases h : cur = []
    · simp [strtokAux, h] at ht
    · simp only [strtokAux, h, if_false, List.mem_singleton] at ht
      subst ht
      exact ⟨h, fun c hc => ⟨Or.inl hc, fun hall => hall c hc⟩⟩
  | cons c l ih =>
    intro cur t ht
    by_cases hc : c = ' '
    · by_cases h : cur = []
      · simp only [strtokAux, hc, h, if_true] at ht
        obtain ⟨h1, h2⟩ := ih [] t ht
        refine ⟨h1, fun d hd => ?_⟩
        obtain ⟨h3, h4⟩ := h2 d hd
        refine ⟨?_, fun _ => h4 (by simp)⟩
        rcases h3 with h3 | h3
        · simp at h3
        · exact Or.inr (List.mem_cons_of_mem _ h3)
      · simp only [strtokAux, hc, h, if_true, if_false, List.mem_cons] at ht
        rcases ht with ht | ht
        · subst ht
          exact ⟨h, fun d hd => ⟨Or.inl hd, fun hall => hall d hd⟩⟩
        · obtain ⟨h1, h2⟩ := ih [] t ht
          refine ⟨h1, fun d hd => ?_⟩
          obtain ⟨h3, h4⟩ := h2 d hd
          refine ⟨?_, fun _ => h4 (by simp)⟩
          rcases h3 with h3 | h3
          · simp at h3
          · exact Or.inr (List.mem_cons_of_mem _ h3)
    · simp only [strtokAux, hc, if_false] at ht
      obtain ⟨h1, h2⟩ := ih (cur ++ [c]) t ht
      refine ⟨h1, fun d hd => ?_⟩
      obtain ⟨h3, h4⟩ := h2 d hd
      constructor
      · rcases h3 with h3 | h3
        · rcases List.mem_append.mp h3 with h5 | h5
          · exact Or.inl h5
          · rw [List.mem_singleton] at h5
            exact Or.inr (h5 ▸ List.mem_cons_self _ _)
        · exact Or.inr (List.mem_cons_of_mem _ h3)
      · intro hall
        apply h4
        intro e he
        rcases List.mem_append.mp he with h5 | h5
        · exact hall e h5
        · rw [List.mem_singleton] at h5
          rw [h5]; exact hc

theorem readResponse_snd (world : World) : (readResponse world).2 = afterResponse world := by
  unfold readResponse afterResponse
  rcases h : recv 9 world.recvs with ⟨r, rest⟩
  cases r <;> rfl

theorem readResponse_head (world : World) :
    (readResponse world).1.headD '\x00' =
      match firstByte (recv 9 world.recvs).1 with
      | none => '\x00'
      | some b => if b = '\r' ∨ b = '\n' ∨ b = '\x00' then '\x00' else tolower b := by
  unfold readResponse
  rcases h : recv 9 world.recvs with ⟨r, rest⟩
  cases r with
  | none => rfl
  | some bytes =>
    cases bytes with
    | nil => rfl
    | cons b bs =>
      simp only [firstByte, List.length_cons, gt_iff_lt, Nat.zero_lt_succ, if_true,
        terminateAtLineEnd]
      by_cases h1 : b = '\r' ∨ b = '\n'
      · have h2 : b = '\r' ∨ b = '\n' ∨ b = '\x00' := by
          rcases h1 with h1 | h1
          · exact Or.inl h1
          · exact Or.inr (Or.inl h1)
        rw [if_pos h1, if_pos h2]
        rfl
      · rw [if_neg h1]
        by_cases h0 : b = '\x00'
        · rw [if_pos (Or.inr (Or.inr h0)), h0]
          rfl
        · have h2 : ¬ (b = '\r' ∨ b = '\n' ∨ b = '\x00') := by
            intro h
            rcases h with h | h | h
            · exact h1 (Or.inl h)
            · exact h1 (Or.inr h)
            · exact h0 h
          rw [if_neg h2]
          simp [cstr, convertToLowercase, h0]

theorem responseChar_yes (world : World) :
    ((readResponse world).1.headD '\x00' = 'y' ∨ (readResponse world).1.headD '\x00' = 'Y') ↔
      answersYes world := by
  rw [readResponse_head]
  unfold answersYes
  cases hb : firstByte (recv 9 world.recvs).1 with
  | none => simp
  | some b =>
    simp only [Option.some.injEq]
    by_cases hs : b = '\r' ∨ b = '\n' ∨ b = '\x00'
    · rw [if_pos hs]
      constructor
      · intro h; rcases h with h | h <;> exact absurd h (by decide)
      · intro h
        rcases hs with hs | hs | hs <;> rcases h with h | h <;> rw [hs] at h <;>
          exact absurd h (by decide)
    · rw [if_neg hs]
      constructor
      · intro h
        rcases h with h | h
        · exact (tolower_eq_y b).mp h
        · exfalso
          have := tolower_not_upper b
          rw [h] at this
          exact this (by decide)
      · intro h
        exact Or.inl ((tolower_eq_y b).mpr h)

theorem responseChar_quit (world : World) :
    ((readResponse world).1.headD '\x00' = 'q' ∨ (readResponse world).1.headD '\x00' = 'Q') ↔
      answersQuit world := by
  rw [readResponse_head]
  unfold answersQuit
  cases hb : firstByte (recv 9 world.recvs).1 with
  | none => simp
  | some b =>
    simp only [Option.some.injEq]
    by_cases hs : b = '\r' ∨ b = '\n' ∨ b = '\x00'
    · rw [if_pos hs]
      constructor
      · intro h; rcases h with h | h <;> exact absurd h (by decide)
      · intro h
        rcases hs with hs | hs | hs <;> rcases h with h | h <;> rw [hs] at h <;>
          exact absurd h (by decide)
    · rw [if_neg hs]
      constructor
      · intro h
        rcases h with h | h
        · exact (tolower_eq_q b).mp h
        · exfalso
          have := tolower_not_upper b
          rw [h] at this
          exact this (by decide)
      · intro h
        exact Or.inl ((tolower_eq_q b).mpr h)

theorem answersQuit_not_yes (world : World) (h : answersQuit world) : ¬ answersYes world := by
  unfold answersQuit at h
  unfold answersYes
  intro hy
  rcases h with h | h <;> rcases hy with hy | hy <;> rw [h] at hy <;>
    exact absurd hy (by decide)

theorem resolve_step_exact (clientSock : Nat) (data : SearchTaskData)
    (more : List SearchTaskData) (i : Nat) (finalOutput : CStr) (s : Session)
    (h : foundExactMatch data = true) :
    resolveTokens clientSock (data :: more) i finalOutput s =
      resolveTokens clientSock more (i + 1) (appendWord finalOutput data.inputStr)
        ⟨s.events ++ listingEvents clientSock i data, s.mainLex, s.world⟩ := by
  rw [resolveTokens]
  simp only [h, if_true]
  rfl

theorem resolve_step_yes (clientSock : Nat) (data : SearchTaskData)
    (more : List SearchTaskData) (i : Nat) (finalOutput : CStr) (s : Session)
    (h : foundExactMatch data = false) (hy : answersYes s.world) :
    resolveTokens clientSock (data :: more) i finalOutput s =
      resolveTokens clientSock more (i + 1) (appendWord finalOutput data.inputStr)
        ⟨s.events ++ listingEvents clientSock i data ++ promptEvents clientSock data
            ++ notifyErrorAndDisconnect 1 Msg.wordAdded,
          addNewEntry s.mainLex data.inputStr,
          appendNewWordToFile (afterResponse s.world) data.inputStr⟩ := by
  have hc := (responseChar_yes s.world).mpr hy
  have h2 := readResponse_snd s.world
  rw [resolveTokens]
  simp only [h, Bool.false_eq_true, if_false, hc, if_true, h2]
  rfl

theorem resolve_step_quit (clientSock : Nat) (data : SearchTaskData)
    (more : List SearchTaskData) (i : Nat) (finalOutput : CStr) (s : Session)
    (h : foundExactMatch data = false) (hq : answersQuit s.world) :
    resolveTokens clientSock (data :: more) i finalOutput s =
      (none, ⟨s.events ++ listingEvents clientSock i data ++ promptEvents clientSock data
            ++ notifyErrorAndDisconnect clientSock Msg.closedByUser ++ [Event.close clientSock],
          s.mainLex, afterResponse s.world⟩) := by
  have hny := answersQuit_not_yes s.world hq
  have hc : ¬ ((readResponse s.world).1.headD '\x00' = 'y' ∨
      (readResponse s.world).1.headD '\x00' = 'Y') := fun e => hny ((responseChar_yes s.world).mp e)
  have hc2 := (responseChar_quit s.world).mpr hq
  have h2 := readResponse_snd s.world
  rw [resolveTokens]
  simp only [h, Bool.false_eq_true, if_false, hc, hc2, if_true, h2]
  rfl

theorem resolve_step_other (clientSock : Nat) (data : SearchTaskData)
    (more : List SearchTaskData) (i : Nat) (finalOutput : CStr) (s : Session)
    (h : foundExactMatch data = false) (hny : ¬ answersYes s.world)
    (hnq : ¬ answersQuit s.world) :
    resolveTokens clientSock (data :: more) i finalOutput s =
      resolveTokens clientSock more (i + 1)
        (appendWord finalOutput (data.closestWords.getD 0 []))
        ⟨s.events ++ listingEvents clientSock i data ++ promptEvents clientSock data
            ++ notifyErrorAndDisconnect 1 Msg.wordNotAdded,
          s.mainLex, afterResponse s.world⟩ := by
  have hc : ¬ ((readResponse s.world).1.headD '\x00' = 'y' ∨
      (readResponse s.world).1.headD '\x00' = 'Y') := fun e => hny ((responseChar_yes s.world).mp e)
  have hc2 : ¬ ((readResponse s.world).1.headD '\x00' = 'q' ∨
      (readResponse s.world).1.headD '\x00' = 'Q') :=
    fun e => hnq ((responseChar_quit s.world).mp e)
  have h2 := readResponse_snd s.world
  rw [resolveTokens]
  simp only [h, Bool.false_eq_true, if_false, hc, hc2, h2]
  rfl

theorem resolve_append (clientSock : Nat) (before rest : List SearchTaskData) :
    ∀ (i : Nat) (finalOutput : CStr) (s : Session),
      resolveTokens clientSock (before ++ rest) i finalOutput s =
        match resolveTokens clientSock before i finalOutput s with
        | (none, s') => (none, s')
        | (some out, s') => resolveTokens clientSock rest (i + before.length) out s' := by
  induction before with
  | nil => intro i out s; simp [resolveTokens]
  | cons data more ih =>
    intro i out s
    have hidx : i + (data :: more).length = i + 1 + more.length := by
      simp only [List.length_cons]; omega
    rw [hidx, List.cons_append]
    by_cases h : foundExactMatch data = true
    · rw [resolve_step_exact _ _ _ _ _ _ h, resolve_step_exact _ _ _ _ _ _ h, ih]
    · have h' : foundExactMatch data = false := by
        cases hf : foundExactMatch data with
        | true => exact absurd hf h
        | false => rfl
      by_cases hy : answersYes s.world
      · rw [resolve_step_yes _ _ _ _ _ _ h' hy, resolve_step_yes _ _ _ _ _ _ h' hy, ih]
      · by_cases hq : answersQuit s.world
        · rw [resolve_step_quit _ _ _ _ _ _ h' hq, resolve_step_quit _ _ _ _ _ _ h' hq]
        · rw [resolve_step_other _ _ _ _ _ _ h' hy hq, resolve_step_other _ _ _ _ _ _ h' hy hq,
            ih]

theorem bool_eq_false_of_ne_true {b : Bool} (h : ¬ b = true) : b = false := by
  cases b with
  | true => exact absurd rfl h
  | false => rfl

theorem resolve_words (clientSock : Nat) (tasks : List SearchTaskData) :
    ∀ (i : Nat) (finalOutput : CStr) (s : Session) (out : CStr) (s' : Session),
      resolveTokens clientSock tasks i finalOutput s = (some out, s') →
      out = (resolvedWords tasks s.world).foldl appendWord finalOutput ∧
      (resolvedWords tasks s.world).length = tasks.length := by
  induction tasks with
  | nil =>
    intro i fo s out s' h
    simp only [resolveTokens, Prod.mk.injEq, Option.some.injEq] at h
    exact ⟨h.1.symm, rfl⟩
  | cons data more ih =>
    intro i fo s out s' h
    by_cases hf : foundExactMatch data = true
    · rw [resolve_step_exact _ _ _ _ _ _ hf] at h
      obtain ⟨h1, h2⟩ := ih _ _ _ _ _ h
      simp only [resolvedWords, hf, if_true, List.foldl_cons, List.length_cons]
      exact ⟨h1, by rw [h2]⟩
    · have hf' := bool_eq_false_of_ne_true hf
      by_cases hy : answersYes s.world
      · rw [resolve_step_yes _ _ _ _ _ _ hf' hy] at h
        obtain ⟨h1, h2⟩ := ih _ _ _ _ _ h
        simp only [resolvedWords, hf', Bool.false_eq_true, if_false, hy, if_true,
          List.foldl_cons, List.length_cons]
        exact ⟨h1, by rw [h2]⟩
      · by_cases hq : answersQuit s.world
        · rw [resolve_step_quit _ _ _ _ _ _ hf' hq] at h
          cases h
        · rw [resolve_step_other _ _ _ _ _ _ hf' hy hq] at h
          obtain ⟨h1, h2⟩ := ih _ _ _ _ _ h
          simp only [resolvedWords, hf', Bool.false_eq_true, if_false, hy, hq,
            List.foldl_cons, List.length_cons]
          exact ⟨h1, by rw [h2]⟩

theorem appendWord_take (x word : CStr) :
    appendWord (x.take 199) word =
      (x ++ snprintfWord (MAX_INPUT_LENGTH + 10) word).take 199 := by
  unfold appendWord strncat
  rw [List.take_append_eq_append_take, List.length_take]
  have hm : MAX_OUTPUT_LENGTH = 200 := rfl
  rw [hm]
  congr 2
  omega

theorem foldl_appendWord (words : List CStr) :
    ∀ x : CStr, words.foldl appendWord (x.take 199) =
      (x ++ words.flatMap (fun w => snprintfWord (MAX_INPUT_LENGTH + 10) w)).take 199 := by
  induction words with
  | nil => intro x; simp
  | cons w ws ih =>
    intro x
    simp only [List.foldl_cons, List.flatMap_cons]
    rw [appendWord_take, ih, List.append_assoc]

theorem foldl_appendWord_nil (words : List CStr) :
    words.foldl appendWord [] =
      (words.flatMap (fun w => snprintfWord (MAX_INPUT_LENGTH + 10) w)).take 199 := by
  have h := foldl_appendWord words []
  simpa using h

theorem snprintfWord_fit (word : CStr) (h : word.length ≤ 108) :
    snprintfWord (MAX_INPUT_LENGTH + 10) word = word ++ [' '] := by
  unfold snprintfWord
  apply List.take_of_length_le
  have hm : MAX_INPUT_LENGTH = 100 := rfl
  simp only [List.length_append, List.length_cons, List.length_nil, hm]
  omega

theorem resolve_lex (clientSock : Nat) (tasks : List SearchTaskData) :
    ∀ (i : Nat) (finalOutput : CStr) (s : Session),
      ∃ added : List CStr,
        (resolveTokens clientSock tasks i finalOutput s).2.mainLex.entries =
          s.mainLex.entries ++ added ∧
        ∀ w ∈ added, ∃ d ∈ tasks, w = d.inputStr := by
  induction tasks with
  | nil => intro i fo s; exact ⟨[], by simp [resolveTokens], by simp⟩
  | cons data more ih =>
    intro i fo s
    by_cases hf : foundExactMatch data = true
    · rw [resolve_step_exact _ _ _ _ _ _ hf]
      obtain ⟨added, h1, h2⟩ := ih (i + 1) (appendWord fo data.inputStr)
        ⟨s.events ++ listingEvents clientSock i data, s.mainLex, s.world⟩
      exact ⟨added, h1, fun w hw => by
        obtain ⟨d, hd, e⟩ := h2 w hw
        exact ⟨d, List.mem_cons_of_mem _ hd, e⟩⟩
    · have hf' := bool_eq_false_of_ne_true hf
      by_cases hy : answersYes s.world
      · rw [resolve_step_yes _ _ _ _ _ _ hf' hy]
        obtain ⟨added, h1, h2⟩ := ih (i + 1) (appendWord fo data.inputStr)
          ⟨s.events ++ listingEvents clientSock i data ++ promptEvents clientSock data
            ++ notifyErrorAndDisconnect 1 Msg.wordAdded,
          addNewEntry s.mainLex data.inputStr,
          appendNewWordToFile (afterResponse s.world) data.inputStr⟩
        refine ⟨data.inputStr :: added, ?_, ?_⟩
        · rw [h1]; simp [addNewEntry]
        · intro w hw
          rcases List.mem_cons.mp hw with e | hw'
          · exact ⟨data, List.mem_cons_self _ _, e⟩
          · obtain ⟨d, hd, e⟩ := h2 w hw'
            exact ⟨d, List.mem_cons_of_mem _ hd, e⟩
      · by_cases hq : answersQuit s.world
        · rw [resolve_step_quit _ _ _ _ _ _ hf' hq]
          exact ⟨[], by simp, by simp⟩
        · rw [resolve_step_other _ _ _ _ _ _ hf' hy hq]
          obtain ⟨added, h1, h2⟩ := ih (i + 1)
            (appendWord fo (data.closestWords.getD 0 []))
            ⟨s.events ++ listingEvents clientSock i data ++ promptEvents clientSock data
              ++ notifyErrorAndDisconnect 1 Msg.wordNotAdded,
            s.mainLex, afterResponse s.world⟩
          exact ⟨added, h1, fun w hw => by
            obtain ⟨d, hd, e⟩ := h2 w hw
            exact ⟨d, List.mem_cons_of_mem _ hd, e⟩⟩

theorem handle_accepted_eq (clientSock : Nat) (mainLex : Dictionary) (world : World)
    (bytes : List Char) (rest : List RecvEvent)
    (hrecv : recv 109 world.recvs = (some bytes, rest))
    (hv : validate (sessionLine bytes) = none) :
    handleClientConnection clientSock mainLex world =
      match resolveTokens clientSock
          ((tokenize (convertToLowercase (sessionLine bytes))).map
            (fun token => searchSimilarWordsThread (initTaskData token mainLex)))
          0 []
          ⟨[Event.send clientSock Msg.greeting, Event.send clientSock Msg.askInput], mainLex,
            ⟨rest, world.fileWritable, world.file⟩⟩ with
      | (none, s) => s
      | (some finalOutput, s) =>
        ⟨s.events ++ [Event.send clientSock
              (Msg.inputLine ((convertToLowercase (sessionLine bytes)).take MAX_INPUT_LENGTH)),
            Event.send clientSock (Msg.outputLine finalOutput),
            Event.send clientSock Msg.goodbye, Event.close clientSock],
          s.mainLex, s.world⟩ := by
  have hcap : MAX_INPUT_LENGTH + 10 - 1 = 109 := rfl
  unfold handleClientConnection
  simp only [hcap, hrecv, cstr_terminateAtLineEnd, hv]

theorem tolower_fixed_of_not_lower (c : Char)
    (h : ¬ (97 ≤ (tolower c).toNat ∧ (tolower c).toNat ≤ 122)) : tolower c = c := by
  apply char_eq_of_toNat
  have h1 := tolower_toNat c
  rw [h1] at h ⊢
  split
  · rename_i hc
    rw [if_pos hc] at h
    omega
  · rfl

theorem take_length_takeWhile (p : Char → Bool) (l : List Char) :
    l.take (l.takeWhile p).length = l.takeWhile p := by
  induction l with
  | nil => rfl
  | cons c l ih =>
    by_cases h : p c = true
    · simp [List.takeWhile_cons, h, ih]
    · simp [List.takeWhile_cons, h]

theorem storeLine_clean (tempBuf : List Char) : wordClean (storeLine tempBuf) := by
  intro c hc
  unfold storeLine convertToLowercase strcspn at hc
  simp only [List.mem_map] at hc
  obtain ⟨d, hd, rfl⟩ := hc
  rw [take_length_takeWhile] at hd
  have hnot := List.mem_takeWhile_imp hd
  simp only [List.contains_cons, List.contains_nil, Bool.or_false, Bool.not_eq_true',
    Bool.or_eq_false_iff, beq_eq_false_iff_ne, ne_eq] at hnot
  refine ⟨tolower_not_upper d, ?_, ?_⟩
  · intro e
    have hfix := tolower_fixed_of_not_lower d (by rw [e]; decide)
    rw [hfix] at e
    exact hnot.1 e
  · intro e
    have hfix := tolower_fixed_of_not_lower d (by rw [e]; decide)
    rw [hfix] at e
    exact hnot.2 e

theorem readEntries_clean (fuel : Nat) :
    ∀ stream : List Char, ∀ w ∈ readEntries fuel stream, wordClean w := by
  induction fuel with
  | zero => intro stream w hw; simp [readEntries] at hw
  | succ n ih =>
    intro stream w hw
    unfold readEntries at hw
    cases hf : fgets 256 stream with
    | none => rw [hf] at hw; simp at hw
    | some p =>
      obtain ⟨tempBuf, rest⟩ := p
      rw [hf] at hw
      simp only [List.mem_cons] at hw
      rcases hw with hw | hw
      · rw [hw]; exact storeLine_clean tempBuf
      · exact ih rest w hw

theorem fgetsLine_length (n : Nat) :
    ∀ stream : List Char, ((fgetsLine n stream).1).length + ((fgetsLine n stream).2).length =
      stream.length ∧ (0 < n → stream ≠ [] → (fgetsLine n stream).2.length < stream.length) := by
  induction n with
  | zero => intro stream; simp [fgetsLine]
  | succ n ih =>
    intro stream
    cases stream with
    | nil => simp [fgetsLine]
    | cons c stream =>
      unfold fgetsLine
      by_cases hc : c = '\n'
      · simp only [hc, if_true, List.length_cons, List.length_nil]
        constructor
        · omega
        · intro _ _
          omega
      · simp only [hc, if_false, List.length_cons]
        have h := (ih stream).1
        constructor
        · omega
        · intro _ _
          omega

theorem readEntries_fuel (fuel : Nat) :
    ∀ (stream : List Char) (extra : Nat), stream.length ≤ fuel →
      readEntries (fuel + extra) stream = readEntries fuel stream := by
  induction fuel with
  | zero =>
    intro stream extra h
    have hs : stream = [] := List.length_eq_zero.mp (by omega)
    subst hs
    cases extra <;> simp [readEntries, fgets]
  | succ n ih =>
    intro stream extra h
    have he : n + 1 + extra = (n + extra) + 1 := by omega
    rw [he]
    unfold readEntries
    cases hf : fgets 256 stream with
    | none => rfl
    | some p =>
      obtain ⟨tempBuf, rest⟩ := p
      simp only
      have hlt : rest.length < stream.length := by
        unfold fgets at hf
        by_cases hs : stream = []
        · simp [hs] at hf
        · simp only [hs, if_false, Option.some.injEq] at hf
          have := (fgetsLine_length (256 - 1) stream).2 (by decide) hs
          rw [hf] at this
          exact this
      rw [ih rest extra (by omega)]

theorem task_spec (token : CStr) (lex : Dictionary) (ht : token.length ≤ MAX_INPUT_LENGTH) :
    (searchSimilarWordsThread (initTaskData token lex)).inputStr = token ∧
    (searchSimilarWordsThread (initTaskData token lex)).closestWords.length = 5 ∧
    (searchSimilarWordsThread (initTaskData token lex)).editDist.length = 5 ∧
    slots (searchSimilarWordsThread (initTaskData token lex)) =
      topKFold token (List.replicate 5 ([], 999999)) lex.entries := by
  obtain ⟨hin, _, hw, hd, hs⟩ := searchLoop_spec token lex lex.entries.length
  rw [List.take_of_length_le ht] at hin
  rw [List.take_of_length_le ht, List.take_length] at hs
  exact ⟨hin, hw, hd, hs⟩

theorem matchEvents_resolution (clientSock : Nat) (data : SearchTaskData) :
    ∀ e ∈ matchEvents clientSock data, isResolutionEvent e = true := by
  intro e he
  unfold matchEvents at he
  rcases List.mem_append.mp he with h | h
  · rcases List.mem_append.mp h with h | h
    · rw [List.mem_singleton] at h; subst h; rfl
    · obtain ⟨j, _, hj⟩ := List.mem_flatMap.mp h
      rcases List.mem_append.mp hj with h | h
      · rw [List.mem_singleton] at h; subst h; rfl
      · by_cases hc : j < LEVENSHTEIN_LIST_LIMIT - 1
        · rw [if_pos hc, List.mem_singleton] at h; subst h; rfl
        · rw [if_neg hc] at h; cases h
  · rw [List.mem_singleton] at h; subst h; rfl

theorem listingEvents_resolution (clientSock i : Nat) (data : SearchTaskData) :
    ∀ e ∈ listingEvents clientSock i data, isResolutionEvent e = true := by
  intro e he
  unfold listingEvents at he
  rcases List.mem_append.mp he with h | h
  · rw [List.mem_singleton] at h; subst h; rfl
  · exact matchEvents_resolution clientSock data e h

theorem promptEvents_resolution (clientSock : Nat) (data : SearchTaskData) :
    ∀ e ∈ promptEvents clientSock data, isResolutionEvent e = true := by
  intro e he
  unfold promptEvents at he
  simp only [List.mem_cons, List.mem_singleton, List.mem_nil_iff, or_false] at he
  rcases he with h | h <;> subst h <;> rfl

theorem notify_resolution (fd : Nat) (msg : Msg)
    (hm : isResolutionEvent (Event.send fd msg) = true) :
    ∀ e ∈ notifyErrorAndDisconnect fd msg, isResolutionEvent e = true := by
  intro e he
  unfold notifyErrorAndDisconnect at he
  rcases List.mem_append.mp he with h | h
  · simp only [List.mem_cons, List.mem_singleton, List.mem_nil_iff, or_false] at h
    rcases h with h | h | h
    · subst h; exact hm
    · subst h; rfl
    · subst h; rfl
  · by_cases h0 : fd = 0
    · rw [if_pos h0, List.mem_singleton] at h; subst h; rfl
    · rw [if_neg h0] at h; cases h

theorem resolve_events (clientSock : Nat) (tasks : List SearchTaskData) :
    ∀ (i : Nat) (finalOutput : CStr) (s : Session),
      ∃ tail : List Event,
        (resolveTokens clientSock tasks i finalOutput s).2.events = s.events ++ tail ∧
        ∀ e ∈ tail, isResolutionEvent e = true := by
  induction tasks with
  | nil => intro i fo s; exact ⟨[], by simp [resolveTokens], by simp⟩
  | cons data more ih =>
    intro i fo s
    have hl := listingEvents_resolution clientSock i data
    have hp := promptEvents_resolution clientSock data
    by_cases hf : foundExactMatch data = true
    · rw [resolve_step_exact _ _ _ _ _ _ hf]
      obtain ⟨tail, h1, h2⟩ := ih (i + 1) (appendWord fo data.inputStr)
        ⟨s.events ++ listingEvents clientSock i data, s.mainLex, s.world⟩
      refine ⟨listingEvents clientSock i data ++ tail, by rw [h1, List.append_assoc], ?_⟩
      intro e he
      rcases List.mem_append.mp he with h | h
      · exact hl e h
      · exact h2 e h
    · have hf' := bool_eq_false_of_ne_true hf
      by_cases hy : answersYes s.world
      · rw [resolve_step_yes _ _ _ _ _ _ hf' hy]
        obtain ⟨tail, h1, h2⟩ := ih (i + 1) (appendWord fo data.inputStr)
          ⟨s.events ++ listingEvents clientSock i data ++ promptEvents clientSock data
            ++ notifyErrorAndDisconnect 1 Msg.wordAdded,
          addNewEntry s.mainLex data.inputStr,
          appendNewWordToFile (afterResponse s.world) data.inputStr⟩
        refine ⟨listingEvents clientSock i data ++ promptEvents clientSock data
          ++ notifyErrorAndDisconnect 1 Msg.wordAdded ++ tail, ?_, ?_⟩
        · rw [h1]; simp only [List.append_assoc]
        · intro e he
          simp only [List.mem_append] at he
          rcases he with ((h | h) | h) | h
          · exact hl e h
          · exact hp e h
          · exact notify_resolution 1 Msg.wordAdded rfl e h
          · exact h2 e h
      · by_cases hq : answersQuit s.world
        · rw [resolve_step_quit _ _ _ _ _ _ hf' hq]
          refine ⟨listingEvents clientSock i data ++ promptEvents clientSock data
            ++ notifyErrorAndDisconnect clientSock Msg.closedByUser
            ++ [Event.close clientSock], ?_, ?_⟩
          · simp only [List.append_assoc]
          · intro e he
            simp only [List.mem_append] at he
            rcases he with ((h | h) | h) | h
            · exact hl e h
            · exact hp e h
            · exact notify_resolution clientSock Msg.closedByUser rfl e h
            · rw [List.mem_singleton] at h; subst h; rfl
        · rw [resolve_step_other _ _ _ _ _ _ hf' hy hq]
          obtain ⟨tail, h1, h2⟩ := ih (i + 1)
            (appendWord fo (data.closestWords.getD 0 []))
            ⟨s.events ++ listingEvents clientSock i data ++ promptEvents clientSock data
              ++ notifyErrorAndDisconnect 1 Msg.wordNotAdded,
            s.mainLex, afterResponse s.world⟩
          refine ⟨listingEvents clientSock i data ++ promptEvents clientSock data
            ++ notifyErrorAndDisconnect 1 Msg.wordNotAdded ++ tail, ?_, ?_⟩
          · rw [h1]; simp only [List.append_assoc]
          · intro e he
            simp only [List.mem_append] at he
            rcases he with ((h | h) | h) | h
            · exact hl e h
            · exact hp e h
            · exact notify_resolution 1 Msg.wordNotAdded rfl e h
            · exact h2 e h

theorem summary_not_resolution (e : Event) (h : isResolutionEvent e = true) :
    isSummaryLine e = false := by
  cases e with
  | send fd msg => cases msg <;> first | rfl | cases h
  | shutdown fd => rfl
  | close fd => rfl
  | perror => rfl

theorem handle_accepted (clientSock : Nat) (mainLex : Dictionary) (world : World)
    (bytes : List Char) (rest : List RecvEvent)
    (hrecv : recv 109 world.recvs = (some bytes, rest))
    (hv : validate (sessionLine bytes) = none) :
    handleClientConnection clientSock mainLex world =
      match resolveTokens clientSock
          ((tokenize (convertToLowercase (sessionLine bytes))).map (taskFor mainLex))
          0 [] (sessionStart clientSock mainLex world rest) with
      | (none, s) => s
      | (some finalOutput, s) =>
        ⟨s.events ++ summaryEvents clientSock (convertToLowercase (sessionLine bytes))
            finalOutput, s.mainLex, s.world⟩ := by
  have hlen := ((validate_eq_none_iff _).mp hv).1
  have htake : (convertToLowercase (sessionLine bytes)).take MAX_INPUT_LENGTH =
      convertToLowercase (sessionLine bytes) := by
    apply List.take_of_length_le
    simpa [convertToLowercase] using hlen
  rw [handle_accepted_eq clientSock mainLex world bytes rest hrecv hv, htake]
  rfl

theorem token_length_le (line : CStr) (t : CStr) (ht : t ∈ tokenize line) :
    t.length ≤ line.length := by
  have htot := strtokAux_total line []
  have hmem : ∀ ts : List CStr, t ∈ ts →
      t.length + 1 ≤ (ts.flatMap (fun t => t ++ [' '])).length := by
    intro ts
    induction ts with
    | nil => intro h; cases h
    | cons u us ih =>
      intro h
      simp only [List.flatMap_cons, List.length_append, List.length_cons, List.length_nil]
      rcases List.mem_cons.mp h with e | h'
      · rw [e]; omega
      · have := ih h'
        omega
  have := hmem _ ht
  unfold tokenize at this
  simp only [List.length_nil] at htot
  omega

theorem flatMap_snprintfWord_fit (words : List CStr) (h : ∀ w ∈ words, w.length ≤ 108) :
    words.flatMap (fun w => snprintfWord (MAX_INPUT_LENGTH + 10) w) =
      words.flatMap (fun w => w ++ [' ']) := by
  induction words with
  | nil => rfl
  | cons w ws ih =>
    simp only [List.flatMap_cons]
    rw [snprintfWord_fit w (h w (List.mem_cons_self _ _)),
      ih (fun u hu => h u (List.mem_cons_of_mem _ hu))]

theorem handle_completed (clientSock : Nat) (mainLex : Dictionary) (world : World)
    (bytes : List Char) (rest : List RecvEvent)
    (hrecv : recv 109 world.recvs = (some bytes, rest))
    (hvalid : validate (sessionLine bytes) = none)
    (hdone : (resolveTokens clientSock
      ((tokenize (convertToLowercase (sessionLine bytes))).map (taskFor mainLex)) 0 []
      (sessionStart clientSock mainLex world rest)).1 ≠ none) :
    (resolvedWords ((tokenize (convertToLowercase (sessionLine bytes))).map (taskFor mainLex))
        (sessionStart clientSock mainLex world rest).world).length =
      (tokenize (convertToLowercase (sessionLine bytes))).length ∧
    handleClientConnection clientSock mainLex world =
      ⟨(resolveTokens clientSock
            ((tokenize (convertToLowercase (sessionLine bytes))).map (taskFor mainLex)) 0 []
            (sessionStart clientSock mainLex world rest)).2.events
          ++ summaryEvents clientSock (convertToLowercase (sessionLine bytes))
            (((resolvedWords
                ((tokenize (convertToLowercase (sessionLine bytes))).map (taskFor mainLex))
                (sessionStart clientSock mainLex world rest).world).flatMap
              (fun w => snprintfWord (MAX_INPUT_LENGTH + 10) w)).take 199),
        (resolveTokens clientSock
          ((tokenize (convertToLowercase (sessionLine bytes))).map (taskFor mainLex)) 0 []
          (sessionStart clientSock mainLex world rest)).2.mainLex,
        (resolveTokens clientSock
          ((tokenize (convertToLowercase (sessionLine bytes))).map (taskFor mainLex)) 0 []
          (sessionStart clientSock mainLex world rest)).2.world⟩ ∧
    (∀ e ∈ (resolveTokens clientSock
        ((tokenize (convertToLowercase (sessionLine bytes))).map (taskFor mainLex)) 0 []
        (sessionStart clientSock mainLex world rest)).2.events, isSummaryLine e = false) ∧
    ((∀ w ∈ resolvedWords
          ((tokenize (convertToLowercase (sessionLine bytes))).map (taskFor mainLex))
          (sessionStart clientSock mainLex world rest).world, w.length ≤ 108) →
      ((resolvedWords
          ((tokenize (convertToLowercase (sessionLine bytes))).map (taskFor mainLex))
          (sessionStart clientSock mainLex world rest).world).flatMap
        (fun w => w ++ [' '])).length ≤ 199 →
      ((resolvedWords
          ((tokenize (convertToLowercase (sessionLine bytes))).map (taskFor mainLex))
          (sessionStart clientSock mainLex world rest).world).flatMap
        (fun w => snprintfWord (MAX_INPUT_LENGTH + 10) w)).take 199 =
      (resolvedWords
          ((tokenize (convertToLowercase (sessionLine bytes))).map (taskFor mainLex))
          (sessionStart clientSock mainLex world rest).world).flatMap
        (fun w => w ++ [' '])) := by
  rcases hr : resolveTokens clientSock
      ((tokenize (convertToLowercase (sessionLine bytes))).map (taskFor mainLex)) 0 []
      (sessionStart clientSock mainLex world rest) with ⟨o, sEnd⟩
  rw [hr] at hdone
  cases o with
  | none => exact absurd rfl hdone
  | some out =>
    obtain ⟨hout, hlen⟩ := resolve_words clientSock _ 0 [] _ out sEnd hr
    rw [foldl_appendWord_nil] at hout
    refine ⟨?_, ?_, ?_, ?_⟩
    · rw [hlen, List.length_map]
    · rw [handle_accepted clientSock mainLex world bytes rest hrecv hvalid, hr, hout]
    · obtain ⟨tail, h1, h2⟩ := resolve_events clientSock
        ((tokenize (convertToLowercase (sessionLine bytes))).map (taskFor mainLex)) 0 []
        (sessionStart clientSock mainLex world rest)
      rw [hr] at h1
      intro e he
      simp only at he
      rw [h1] at he
      rcases List.mem_append.mp he with h | h
      · simp only [sessionStart, List.mem_cons, List.mem_singleton, List.mem_nil_iff,
          or_false] at h
        rcases h with h | h <;> subst h <;> rfl
      · exact summary_not_resolution e (h2 e h)
    · intro hw htot
      rw [flatMap_snprintfWord_fit _ hw]
      exact List.take_of_length_le htot

/-! ## The claims on the session, each after the lemmas it needs -/

/-- C11: for every sequence of non-empty words made of letters only whose join with single
spaces has at most 100 characters, the join passes the validation, tokenizing its lowercase
form yields exactly the lowercased words in their order, and joining the tokens with single
spaces gives back the lowercased input. -/
theorem tokenize_joined_words (ws : List CStr)
    (hw : ∀ w ∈ ws, w ≠ [] ∧ ∀ c ∈ w, isAsciiLetter c)
    (hlen : (spaceJoin ws).length ≤ MAX_INPUT_LENGTH) :
    validate (spaceJoin ws) = none ∧
    tokenize (convertToLowercase (spaceJoin ws)) = ws.map convertToLowercase ∧
    spaceJoin (tokenize (convertToLowercase (spaceJoin ws))) =
      convertToLowercase (spaceJoin ws) := by
  have htok : tokenize (convertToLowercase (spaceJoin ws)) = ws.map convertToLowercase := by
    rw [convertToLowercase_spaceJoin]
    apply tokenize_spaceJoin
    intro v hv
    obtain ⟨w, hwm, rfl⟩ := List.mem_map.mp hv
    obtain ⟨hne, hletters⟩ := hw w hwm
    constructor
    · intro he
      exact hne (List.map_eq_nil_iff.mp he)
    · intro c hc
      obtain ⟨d, hd, rfl⟩ := List.mem_map.mp hc
      exact lowerLetter_ne_space _ (tolower_lowerLetter d (hletters d hd))
  refine ⟨?_, htok, ?_⟩
  · rw [validate_eq_none_iff]
    refine ⟨hlen, ?_⟩
    intro c hc
    rcases mem_spaceJoin ws c hc with h | ⟨w, hwm, hcw⟩
    · exact Or.inr h
    · exact Or.inl ((hw w hwm).2 c hcw)
  · rw [htok, convertToLowercase_spaceJoin]

/-- Witness for C11: "the cat sat" tokenizes to the, cat, sat. -/
theorem tokenize_joined_words_witness :
    (∀ w ∈ ["the".toList, "cat".toList, "sat".toList], w ≠ [] ∧ ∀ c ∈ w, isAsciiLetter c) ∧
    (spaceJoin ["the".toList, "cat".toList, "sat".toList]).length ≤ MAX_INPUT_LENGTH ∧
    tokenize (convertToLowercase "the cat sat".toList) =
      ["the".toList, "cat".toList, "sat".toList] :=
  ⟨by decide, by decide,
    (tokenize_joined_words ["the".toList, "cat".toList, "sat".toList]
      (by decide) (by decide)).2.1⟩

/-- C20: for every input line that passes the length check and the character check,
tokenizing produces at most 50 tokens, so every index written into the array of 100 token
pointers is below 100. -/
theorem token_count_at_most_fifty (line : CStr) (hv : validate line = none) :
    (tokenize (convertToLowercase line)).length ≤ 50 ∧
    ∀ k, k < (tokenize (convertToLowercase line)).length → k < 100 := by
  have hlen := ((validate_eq_none_iff line).mp hv).1
  have hm : MAX_INPUT_LENGTH = 100 := rfl
  have hc := strtokAux_count (convertToLowercase line) []
  simp only [if_true] at hc
  have hl : (convertToLowercase line).length = line.length := by
    simp [convertToLowercase]
  rw [hl] at hc
  have h50 : (tokenize (convertToLowercase line)).length ≤ 50 := by
    unfold tokenize
    omega
  exact ⟨h50, fun k hk => by omega⟩

/-- Witness for C20: the line "a b" passes the checks and has two tokens. -/
theorem token_count_at_most_fifty_witness :
    validate "a b".toList = none ∧ (tokenize (convertToLowercase "a b".toList)).length ≤ 50 :=
  ⟨by decide, (token_count_at_most_fifty "a b".toList (by decide)).1⟩

/-- C14: in an accepted session, when the tokens before one token are resolved without a quit,
that token has no exact match and the answer to its prompt is quit, the session ends there: its
events are those up to that prompt followed by the closing notice, the `shutdown` and the
`close`; nothing is listed or asked for the tokens after it; no "INPUT :" or "OUTPUT:" line is
sent; and the dictionary and the word file are as they were when the answer was read. -/
theorem quit_ends_session (clientSock : Nat) (mainLex : Dictionary) (world : World)
    (bytes : List Char) (rest : List RecvEvent) (tb : List CStr) (t : CStr) (tm : List CStr)
    (hrecv : recv 109 world.recvs = (some bytes, rest))
    (hvalid : validate (sessionLine bytes) = none)
    (htok : tokenize (convertToLowercase (sessionLine bytes)) = tb ++ t :: tm)
    (hbefore : (resolveTokens clientSock (tb.map (taskFor mainLex)) 0 []
      (sessionStart clientSock mainLex world rest)).1 ≠ none)
    (hno : foundExactMatch (taskFor mainLex t) = false)
    (hq : answersQuit (resolveTokens clientSock (tb.map (taskFor mainLex)) 0 []
      (sessionStart clientSock mainLex world rest)).2.world) :
    handleClientConnection clientSock mainLex world =
      ⟨(resolveTokens clientSock (tb.map (taskFor mainLex)) 0 []
            (sessionStart clientSock mainLex world rest)).2.events
          ++ listingEvents clientSock tb.length (taskFor mainLex t)
          ++ promptEvents clientSock (taskFor mainLex t)
          ++ notifyErrorAndDisconnect clientSock Msg.closedByUser
          ++ [Event.close clientSock],
        (resolveTokens clientSock (tb.map (taskFor mainLex)) 0 []
          (sessionStart clientSock mainLex world rest)).2.mainLex,
        afterResponse (resolveTokens clientSock (tb.map (taskFor mainLex)) 0 []
          (sessionStart clientSock mainLex world rest)).2.world⟩ ∧
    (afterResponse (resolveTokens clientSock (tb.map (taskFor mainLex)) 0 []
        (sessionStart clientSock mainLex world rest)).2.world).file =
      (resolveTokens clientSock (tb.map (taskFor mainLex)) 0 []
        (sessionStart clientSock mainLex world rest)).2.world.file ∧
    ∀ e ∈ (handleClientConnection clientSock mainLex world).events, isSummaryLine e = false := by
  have hmain : handleClientConnection clientSock mainLex world =
      ⟨(resolveTokens clientSock (tb.map (taskFor mainLex)) 0 []
            (sessionStart clientSock mainLex world rest)).2.events
          ++ listingEvents clientSock tb.length (taskFor mainLex t)
          ++ promptEvents clientSock (taskFor mainLex t)
          ++ notifyErrorAndDisconnect clientSock Msg.closedByUser
          ++ [Event.close clientSock],
        (resolveTokens clientSock (tb.map (taskFor mainLex)) 0 []
          (sessionStart clientSock mainLex world rest)).2.mainLex,
        afterResponse (resolveTokens clientSock (tb.map (taskFor mainLex)) 0 []
          (sessionStart clientSock mainLex world rest)).2.world⟩ := by
    rw [handle_accepted clientSock mainLex world bytes rest hrecv hvalid, htok, List.map_append,
      List.map_cons, resolve_append]
    rcases hb : resolveTokens clientSock (tb.map (taskFor mainLex)) 0 []
        (sessionStart clientSock mainLex world rest) with ⟨o, sb⟩
    rw [hb] at hbefore hq
    cases o with
    | none => exact absurd rfl hbefore
    | some out =>
      simp only [List.length_map, Nat.zero_add]
      rw [resolve_step_quit _ _ _ _ _ _ hno hq]
  refine ⟨hmain, rfl, ?_⟩
  rw [hmain]
  obtain ⟨tail, h1, h2⟩ := resolve_events clientSock (tb.map (taskFor mainLex)) 0 []
    (sessionStart clientSock mainLex world rest)
  intro e he
  simp only [h1, List.mem_append] at he
  rcases he with ((((h | h) | h) | h) | h) | h
  · simp only [sessionStart, List.mem_cons, List.mem_singleton, List.mem_nil_iff,
      or_false] at h
    rcases h with h | h <;> subst h <;> rfl
  · exact summary_not_resolution e (h2 e h)
  · exact summary_not_resolution e (listingEvents_resolution _ _ _ e h)
  · exact summary_not_resolution e (promptEvents_resolution _ _ e h)
  · exact summary_not_resolution e (notify_resolution clientSock Msg.closedByUser rfl e h)
  · rw [List.mem_singleton] at h; subst h; rfl

/-- Witness for C14: the input "cat dog bat" with the example dictionary; "cat" matches, "dog"
does not and is answered with "q": the session ends without listing "bat" and without a
summary, the dictionary unchanged. -/
theorem quit_ends_session_witness :
    (recv 109 [RecvEvent.data "cat dog bat\r\n".toList, RecvEvent.data "q\r\n".toList] =
        (some "cat dog bat\r\n".toList, [RecvEvent.data "q\r\n".toList]) ∧
      validate (sessionLine "cat dog bat\r\n".toList) = none ∧
      tokenize (convertToLowercase (sessionLine "cat dog bat\r\n".toList)) =
        ["cat".toList] ++ "dog".toList :: ["bat".toList] ∧
      foundExactMatch (taskFor catDict "dog".toList) = false) ∧
    (handleClientConnection 4 catDict
        ⟨[RecvEvent.data "cat dog bat\r\n".toList, RecvEvent.data "q\r\n".toList],
          true, []⟩).mainLex = catDict ∧
    ∀ e ∈ (handleClientConnection 4 catDict
        ⟨[RecvEvent.data "cat dog bat\r\n".toList, RecvEvent.data "q\r\n".toList],
          true, []⟩).events, isSummaryLine e = false :=
  ⟨⟨by decide, by decide, by decide, by decide⟩,
    by decide,
    (quit_ends_session 4 catDict
      ⟨[RecvEvent.data "cat dog bat\r\n".toList, RecvEvent.data "q\r\n".toList], true, []⟩
      "cat dog bat\r\n".toList [RecvEvent.data "q\r\n".toList]
      ["cat".toList] "dog".toList ["bat".toList]
      (by decide) (by decide) (by decide) (by decide) (by decide) (by decide)).2.2⟩

set_option maxRecDepth 100000 in
/-- Counterexample to C16 as stated. With the example dictionary and the input "cat" the
resolved words are just "cat", yet the text of the "OUTPUT:" line is "cat" followed by a space.
With a dictionary whose only word has 60 letters and the input "a b c d", every answer missing,
each of the four tokens is resolved to that word, yet the text of the "OUTPUT:" line stops after
199 characters, inside the fourth word. -/
theorem output_line_counterexample :
    (resolvedWords ((tokenize "cat".toList).map (taskFor catDict)) ⟨[], true, []⟩ =
        ["cat".toList] ∧
      Event.send 4 (Msg.outputLine "cat ".toList) ∈
        (handleClientConnection 4 catDict ⟨[RecvEvent.data "cat\r\n".toList], true, []⟩).events ∧
      Event.send 4 (Msg.outputLine (spaceJoin ["cat".toList])) ∉
        (handleClientConnection 4 catDict
          ⟨[RecvEvent.data "cat\r\n".toList], true, []⟩).events) ∧
    (resolvedWords ((tokenize "a b c d".toList).map (taskFor ⟨[List.replicate 60 'x']⟩))
        ⟨[], true, []⟩ = List.replicate 4 (List.replicate 60 'x') ∧
      Event.send 4 (Msg.outputLine
          ((List.replicate 3 (List.replicate 60 'x' ++ [' '])).flatten
            ++ List.replicate 16 'x')) ∈
        (handleClientConnection 4 ⟨[List.replicate 60 'x']⟩
          ⟨[RecvEvent.data "a b c d\r\n".toList], true, []⟩).events ∧
      Event.send 4 (Msg.outputLine (spaceJoin (List.replicate 4 (List.replicate 60 'x')))) ∉
        (handleClientConnection 4 ⟨[List.replicate 60 'x']⟩
          ⟨[RecvEvent.data "a b c d\r\n".toList], true, []⟩).events) := by
  refine ⟨⟨by decide, by decide, by decide⟩, ⟨by decide, by decide, by decide⟩⟩

/-- C16 (amended): in every session that completes, every token has a resolved word, and when
no resolved word is longer than 108 characters and the resolved words, each with one space after
it, have together at most 199 characters, the text of the "OUTPUT:" line is exactly every
resolved word, in token order, followed by one space, with no word missing or cut short; the
line is the only "OUTPUT:" line of the session. -/
theorem output_line_text (clientSock : Nat) (mainLex : Dictionary) (world : World)
    (bytes : List Char) (rest : List RecvEvent)
    (hrecv : recv 109 world.recvs = (some bytes, rest))
    (hvalid : validate (sessionLine bytes) = none)
    (hdone : (resolveTokens clientSock
      ((tokenize (convertToLowercase (sessionLine bytes))).map (taskFor mainLex)) 0 []
      (sessionStart clientSock mainLex world rest)).1 ≠ none)
    (hw : ∀ w ∈ resolvedWords
      ((tokenize (convertToLowercase (sessionLine bytes))).map (taskFor mainLex))
      (sessionStart clientSock mainLex world rest).world, w.length ≤ 108)
    (htot : ((resolvedWords
      ((tokenize (convertToLowercase (sessionLine bytes))).map (taskFor mainLex))
      (sessionStart clientSock mainLex world rest).world).flatMap
        (fun w => w ++ [' '])).length ≤ 199) :
    (resolvedWords ((tokenize (convertToLowercase (sessionLine bytes))).map (taskFor mainLex))
        (sessionStart clientSock mainLex world rest).world).length =
      (tokenize (convertToLowercase (sessionLine bytes))).length ∧
    handleClientConnection clientSock mainLex world =
      ⟨(resolveTokens clientSock
            ((tokenize (convertToLowercase (sessionLine bytes))).map (taskFor mainLex)) 0 []
            (sessionStart clientSock mainLex world rest)).2.events
          ++ summaryEvents clientSock (convertToLowercase (sessionLine bytes))
            ((resolvedWords
                ((tokenize (convertToLowercase (sessionLine bytes))).map (taskFor mainLex))
                (sessionStart clientSock mainLex world rest).world).flatMap
              (fun w => w ++ [' '])),
        (resolveTokens clientSock
          ((tokenize (convertToLowercase (sessionLine bytes))).map (taskFor mainLex)) 0 []
          (sessionStart clientSock mainLex world rest)).2.mainLex,
        (resolveTokens clientSock
          ((tokenize (convertToLowercase (sessionLine bytes))).map (taskFor mainLex)) 0 []
          (sessionStart clientSock mainLex world rest)).2.world⟩ ∧
    (∀ e ∈ (resolveTokens clientSock
        ((tokenize (convertToLowercase (sessionLine bytes))).map (taskFor mainLex)) 0 []
        (sessionStart clientSock mainLex world rest)).2.events, isSummaryLine e = false) := by
  obtain ⟨h1, h2, h3, h4⟩ := handle_completed clientSock mainLex world bytes rest hrecv hvalid
    hdone
  refine ⟨h1, ?_, h3⟩
  rw [h2, h4 hw htot]

/-- Witness for C16 (amended): the input "cat dog" with the example dictionary and the answer
"n": the resolved words are "cat" and "cat" and the text of the "OUTPUT:" line is both words,
each followed by a space. -/
theorem output_line_text_witness :
    (recv 109 [RecvEvent.data "cat dog\r\n".toList, RecvEvent.data "n\r\n".toList] =
        (some "cat dog\r\n".toList, [RecvEvent.data "n\r\n".toList]) ∧
      validate (sessionLine "cat dog\r\n".toList) = none ∧
      (resolveTokens 4
        ((tokenize (convertToLowercase (sessionLine "cat dog\r\n".toList))).map
          (taskFor catDict)) 0 []
        (sessionStart 4 catDict
          ⟨[RecvEvent.data "cat dog\r\n".toList, RecvEvent.data "n\r\n".toList], true, []⟩
          [RecvEvent.data "n\r\n".toList])).1 ≠ none ∧
      (∀ w ∈ resolvedWords
        ((tokenize (convertToLowercase (sessionLine "cat dog\r\n".toList))).map
          (taskFor catDict))
        (sessionStart 4 catDict
          ⟨[RecvEvent.data "cat dog\r\n".toList, RecvEvent.data "n\r\n".toList], true, []⟩
          [RecvEvent.data "n\r\n".toList]).world, w.length ≤ 108)) ∧
    (resolvedWords
        ((tokenize (convertToLowercase (sessionLine "cat dog\r\n".toList))).map
          (taskFor catDict))
        (sessionStart 4 catDict
          ⟨[RecvEvent.data "cat dog\r\n".toList, RecvEvent.data "n\r\n".toList], true, []⟩
          [RecvEvent.data "n\r\n".toList]).world).length =
      (tokenize (convertToLowercase (sessionLine "cat dog\r\n".toList))).length ∧
    Event.send 4 (Msg.outputLine "cat cat ".toList) ∈
      (handleClientConnection 4 catDict
        ⟨[RecvEvent.data "cat dog\r\n".toList, RecvEvent.data "n\r\n".toList],
          true, []⟩).events :=
  ⟨⟨by decide, by decide, by decide, by decide⟩,
    (output_line_text 4 catDict
      ⟨[RecvEvent.data "cat dog\r\n".toList, RecvEvent.data "n\r\n".toList], true, []⟩
      "cat dog\r\n".toList [RecvEvent.data "n\r\n".toList]
      (by decide) (by decide) (by decide) (by decide) (by decide)).1,
    by decide⟩

/-- C17, evaluated at the input "Cat": the "INPUT :" line of the summary carries "cat", the
line after `convertToLowercase`, and not "Cat" as the client sent it. -/
theorem input_line_is_lowercased_example :
    Event.send 4 (Msg.inputLine "cat".toList) ∈
      (handleClientConnection 4 catDict ⟨[RecvEvent.data "Cat\r\n".toList], true, []⟩).events ∧
    Event.send 4 (Msg.inputLine "Cat".toList) ∉
      (handleClientConnection 4 catDict ⟨[RecvEvent.data "Cat\r\n".toList], true, []⟩).events := by
  constructor <;> decide

theorem lowerLetter_clean (w : CStr) (h : ∀ c ∈ w, isLowerLetter c) : wordClean w := by
  intro c hc
  have hl := h c hc
  unfold isLowerLetter at hl
  refine ⟨?_, ?_, ?_⟩
  · unfold isUpperLetter; omega
  · intro e; rw [e] at hl; exact absurd hl (by decide)
  · intro e; rw [e] at hl; exact absurd hl (by decide)

theorem token_lowercase_letters (line : CStr) (hv : validate line = none) (t : CStr)
    (ht : t ∈ tokenize (convertToLowercase line)) :
    t.length ≤ MAX_INPUT_LENGTH ∧ t ≠ [] ∧ ∀ c ∈ t, isLowerLetter c := by
  obtain ⟨hlen, hall⟩ := (validate_eq_none_iff line).mp hv
  have hl : (convertToLowercase line).length = line.length := by simp [convertToLowercase]
  have h1 := token_length_le _ t ht
  obtain ⟨hne, hch⟩ := strtokAux_mem (convertToLowercase line) [] t ht
  refine ⟨by omega, hne, ?_⟩
  intro c hc
  obtain ⟨hin, hsp⟩ := hch c hc
  have hcs : c ≠ ' ' := hsp (fun d hd => by cases hd)
  rcases hin with hin | hin
  · cases hin
  · obtain ⟨d, hd, rfl⟩ := List.mem_map.mp hin
    rcases hall d hd with hletter | hspace
    · exact tolower_lowerLetter d hletter
    · rw [hspace] at hcs
      exact absurd rfl hcs

theorem handle_added (clientSock : Nat) (lex : Dictionary) (world : World) :
    ∃ added : List CStr,
      (handleClientConnection clientSock lex world).mainLex.entries = lex.entries ++ added ∧
      ∀ w ∈ added, w ≠ [] ∧ ∀ c ∈ w, isLowerLetter c := by
  have hcap : MAX_INPUT_LENGTH + 10 - 1 = 109 := rfl
  rcases hrecv : recv 109 world.recvs with ⟨r, rest⟩
  cases r with
  | none =>
    refine ⟨[], ?_, by simp⟩
    unfold handleClientConnection
    simp only [hcap, hrecv, List.append_nil]
  | some bytes =>
    cases hv : validate (sessionLine bytes) with
    | some msg =>
      refine ⟨[], ?_, by simp⟩
      rw [handle_rejected clientSock lex world bytes rest msg hrecv hv, List.append_nil]
    | none =>
      obtain ⟨added, h1, h2⟩ := resolve_lex clientSock
        ((tokenize (convertToLowercase (sessionLine bytes))).map (taskFor lex)) 0 []
        (sessionStart clientSock lex world rest)
      refine ⟨added, ?_, ?_⟩
      · rw [handle_accepted clientSock lex world bytes rest hrecv hv]
        rcases hr : resolveTokens clientSock
            ((tokenize (convertToLowercase (sessionLine bytes))).map (taskFor lex)) 0 []
            (sessionStart clientSock lex world rest) with ⟨o, sEnd⟩
        rw [hr] at h1
        cases o <;> exact h1
      · intro w hw
        obtain ⟨d, hd, rfl⟩ := h2 w hw
        obtain ⟨t, ht, rfl⟩ := List.mem_map.mp hd
        obtain ⟨hlen, hne, hch⟩ := token_lowercase_letters _ hv t ht
        have hin : (taskFor lex t).inputStr = t := (task_spec t lex hlen).1
        rw [hin]
        exact ⟨hne, hch⟩

/-- C18: `loadFromFile` returns, for every content of a file that can be opened, a dictionary
in which no word has an uppercase letter, a CR or an LF (and more iterations of its loop would
read nothing more); every session, whatever it receives, leaves the dictionary it was given
followed by words it appended, each of them non-empty and made of lowercase letters only; hence
a session keeps the invariant. -/
theorem dictionary_words_stay_clean :
    (∀ content : List Char, ∃ lex : Dictionary,
      loadFromFile (some content) = some lex ∧ dictClean lex ∧
      ∀ extra : Nat, readEntries (content.length + extra) content = lex.entries) ∧
    (∀ (clientSock : Nat) (lex : Dictionary) (world : World), ∃ added : List CStr,
      (handleClientConnection clientSock lex world).mainLex.entries = lex.entries ++ added ∧
      ∀ w ∈ added, w ≠ [] ∧ ∀ c ∈ w, isLowerLetter c) ∧
    (∀ (clientSock : Nat) (lex : Dictionary) (world : World),
      dictClean lex → dictClean (handleClientConnection clientSock lex world).mainLex) := by
  refine ⟨?_, handle_added, ?_⟩
  · intro content
    exact ⟨⟨readEntries content.length content⟩, rfl,
      fun w hw => readEntries_clean content.length content w hw,
      fun extra => readEntries_fuel content.length content extra (Nat.le_refl _)⟩
  · intro clientSock lex world hclean
    obtain ⟨added, h1, h2⟩ := handle_added clientSock lex world
    intro w hw
    rw [h1] at hw
    rcases List.mem_append.mp hw with h | h
    · exact hclean w h
    · exact lowerLetter_clean w (h2 w h).2

/-- Witness for C18: the example dictionary is clean, and stays clean in the session that adds
the token "dog" typed as "DOG"; a file with the lines "Cat" and "bAt" ended by CR LF loads as
cat, bat. -/
theorem dictionary_words_stay_clean_witness :
    dictClean catDict ∧
    dictClean (handleClientConnection 4 catDict
      ⟨[RecvEvent.data "DOG\r\n".toList, RecvEvent.data "Y\r\n".toList], true, []⟩).mainLex ∧
    (handleClientConnection 4 catDict
      ⟨[RecvEvent.data "DOG\r\n".toList, RecvEvent.data "Y\r\n".toList], true, []⟩).mainLex.entries
      = catDict.entries ++ ["dog".toList] ∧
    loadFromFile (some "Cat\r\nbAt\r\n".toList) = some ⟨["cat".toList, "bat".toList]⟩ :=
  ⟨by decide,
    dictionary_words_stay_clean.2.2 4 catDict
      ⟨[RecvEvent.data "DOG\r\n".toList, RecvEvent.data "Y\r\n".toList], true, []⟩ (by decide),
    by decide, by decide⟩

theorem fgetsLine_fst_length_le (n : Nat) :
    ∀ stream : List Char, ((fgetsLine n stream).1).length ≤ n := by
  induction n with
  | zero => intro stream; simp [fgetsLine]
  | succ n ih =>
    intro stream
    cases stream with
    | nil => simp [fgetsLine]
    | cons c stream =>
      unfold fgetsLine
      by_cases hc : c = '\n'
      · simp only [hc, if_true, List.length_cons, List.length_nil]
        omega
      · simp only [hc, if_false, List.length_cons]
        have h := ih stream
        omega

theorem storeLine_length_le (tempBuf : List Char) :
    (storeLine tempBuf).length ≤ tempBuf.length := by
  unfold storeLine convertToLowercase cstr
  simp only [List.length_map, List.length_take]
  have h : (List.takeWhile (fun c => c != '\x00') tempBuf).length ≤ tempBuf.length :=
    (List.takeWhile_sublist _).length_le
  omega

/-- Every entry stored by the loop of `loadFromFile` has at most 255 characters, the room of
`tempBuf` before its terminating NUL. -/
theorem readEntries_length_le (fuel : Nat) :
    ∀ stream : List Char, ∀ w ∈ readEntries fuel stream, w.length ≤ 255 := by
  induction fuel with
  | zero => intro stream w hw; simp [readEntries] at hw
  | succ n ih =>
    intro stream w hw
    unfold readEntries at hw
    cases hf : fgets 256 stream with
    | none => rw [hf] at hw; simp at hw
    | some p =>
      obtain ⟨tempBuf, rest⟩ := p
      rw [hf] at hw
      simp only [List.mem_cons] at hw
      rcases hw with hw | hw
      · rw [hw]
        have hbuf : tempBuf.length ≤ 255 := by
          unfold fgets at hf
          split at hf
          · cases hf
          · have hp := Option.some.inj hf
            have h1 : tempBuf = (fgetsLine (256 - 1) stream).1 := by rw [hp]
            rw [h1]
            exact fgetsLine_fst_length_le 255 stream
        have hs := storeLine_length_le tempBuf
        omega
      · exact ih rest w hw

/-- Every dictionary returned by `loadFromFile` holds entries of at most 255 characters. -/
theorem loadFromFile_entries_bounded (file : Option (List Char)) (lex : Dictionary)
    (h : loadFromFile file = some lex) : ∀ w ∈ lex.entries, w.length ≤ 255 := by
  cases file with
  | none => cases h
  | some content =>
    have hl : lex = ⟨readEntries content.length content⟩ := (Option.some.inj h).symm
    rw [hl]
    exact readEntries_length_le content.length content

/-- A session appends only tokens of the validated line, of at most `MAX_INPUT_LENGTH`
characters each. -/
theorem handle_added_length (clientSock : Nat) (lex : Dictionary) (world : World) :
    ∃ added : List CStr,
      (handleClientConnection clientSock lex world).mainLex.entries = lex.entries ++ added ∧
      ∀ w ∈ added, w.length ≤ MAX_INPUT_LENGTH := by
  have hcap : MAX_INPUT_LENGTH + 10 - 1 = 109 := rfl
  rcases hrecv : recv 109 world.recvs with ⟨r, rest⟩
  cases r with
  | none =>
    refine ⟨[], ?_, by simp⟩
    unfold handleClientConnection
    simp only [hcap, hrecv, List.append_nil]
  | some bytes =>
    cases hv : validate (sessionLine bytes) with
    | some msg =>
      refine ⟨[], ?_, by simp⟩
      rw [handle_rejected clientSock lex world bytes rest msg hrecv hv, List.append_nil]
    | none =>
      obtain ⟨added, h1, h2⟩ := resolve_lex clientSock
        ((tokenize (convertToLowercase (sessionLine bytes))).map (taskFor lex)) 0 []
        (sessionStart clientSock lex world rest)
      refine ⟨added, ?_, ?_⟩
      · rw [handle_accepted clientSock lex world bytes rest hrecv hv]
        rcases hr : resolveTokens clientSock
            ((tokenize (convertToLowercase (sessionLine bytes))).map (taskFor lex)) 0 []
            (sessionStart clientSock lex world rest) with ⟨o, sEnd⟩
        rw [hr] at h1
        cases o <;> exact h1
      · intro w hw
        obtain ⟨d, hd, rfl⟩ := h2 w hw
        obtain ⟨t, ht, rfl⟩ := List.mem_map.mp hd
        obtain ⟨hlen, _, _⟩ := token_lowercase_letters _ hv t ht
        have hin : (taskFor lex t).inputStr = t := (task_spec t lex hlen).1
        rw [hin]
        exact hlen

/-- A session keeps the bound on the entries: the dictionary it leaves holds words of at most
255 characters when the dictionary it was given does. -/
theorem handle_entries_bounded (clientSock : Nat) (lex : Dictionary) (world : World)
    (h : ∀ w ∈ lex.entries, w.length ≤ 255) :
    ∀ w ∈ (handleClientConnection clientSock lex world).mainLex.entries, w.length ≤ 255 := by
  obtain ⟨added, h1, h2⟩ := handle_added_length clientSock lex world
  intro w hw
  rw [h1] at hw
  rcases List.mem_append.mp hw with hw | hw
  · exact h w hw
  · have hl := h2 w hw
    have hm : MAX_INPUT_LENGTH = 100 := rfl
    omega

/-- Every token of a validated line is matched with at most `MAX_INPUT_LENGTH` characters. -/
theorem session_token_length_le (line : CStr) (hv : validate line = none) (t : CStr)
    (ht : t ∈ tokenize (convertToLowercase line)) : t.length ≤ MAX_INPUT_LENGTH :=
  (token_lowercase_letters line hv t ht).1

end TextAnalysisServer
